import Mathlib

/-!
CMSIS-DSP `arm_vec_math_f16.h`: vector half-precision math kernels.

A shallow embedding of the Helium (MVE) kernels `vrecip_medprec_f16`,
`vrecip_hiprec_f16`, `vdiv_f16`, `vtaylor_polyq_f16`, `vmant_exp_f16`,
`vlogq_f16`, `vexpq_f16`, `arm_vec_exponent_f16` and `vpowq_f16`.

* A vector register is a function on eight lanes.
* Every kernel is written once, over a record of per-lane primitives
  (`Arith`, `Lane`), line for line after the C text.
* The primitives are instantiated three ways: exact arithmetic in a
  commutative ring (`Arith.exact`), exact arithmetic in an ordered field
  (`Lane.exact`), and binary16 bit patterns (`halfLane`), the last one over an
  arbitrary floating arithmetic `HalfOps` or over the IEEE-754 one (`ieee`).
  `ExactParams.binary16` gives the exact reading the binary16 views of the
  union `any16x8_t`.
-/

namespace ArmVecMathF16

/-! ## Registers and per-lane primitives -/

/-- Eight-lane vector register (`f16x8_t`, `q15x8_t`, `int16x8_t`). -/
abbrev Vec (α : Type) : Type := Fin 8 → α

/-- Floating arithmetic of one lane: the C operators `*`, `-` and the fused
multiply-accumulate instructions. -/
structure Arith (F : Type) where
  /-- Lane product, `vmulq` and the C operator `*`. -/
  mul : F → F → F
  /-- Lane difference, the C operator `-`. -/
  sub : F → F → F
  /-- Fused `a + b * c` (VFMA; VFMAS is the same operation with the addend last). -/
  fma : F → F → F → F
  /-- Fused `a - b * c` (VFMS). -/
  fms : F → F → F → F

/-- Everything a lane of the header needs besides `Arith`: sign operations,
comparisons, the two views of `any16x8_t`, the conversions between `int16` and
`float16`, the literals of the C text and the two coefficient tables of
`arm_common_tables_f16.h` (which is not part of the header). -/
structure Lane (F : Type) extends Arith F where
  /-- Lane absolute value, `vabsq`. -/
  abs : F → F
  /-- Lane negation, `vnegq` and unary minus. -/
  neg : F → F
  /-- Floating comparison `==` (VCMP EQ). -/
  cmpeq : F → F → Bool
  /-- Floating comparison `<` (VCMP LT). -/
  cmplt : F → F → Bool
  /-- The `.i` view of `any16x8_t`: the lane read as a signed 16-bit integer. -/
  bits : F → Int
  /-- The `.f` view of `any16x8_t`: a 16-bit integer read as a lane. -/
  ofBits : Int → F
  /-- Conversion `vcvtq_s16_f16`. -/
  cvt_s16_f16 : F → Int
  /-- Conversion `vcvtq_f16_s16`. -/
  cvt_f16_s16 : Int → F
  /-- The literal `0.0f`. -/
  zero : F
  /-- The constant `F16INFINITY`. -/
  inf : F
  /-- The literal `2.0f16`. -/
  two : F
  /-- The literal `1.41176471f16`. -/
  c1_41176471 : F
  /-- The literal `0.47058824f16`. -/
  c0_47058824 : F
  /-- The literal `1.4426950408f16`. -/
  c1_4426950408 : F
  /-- The literal `0.6931471805f16`. -/
  c0_6931471805 : F
  /-- The constant `__logf_rng_f16 = 0.693147180f16`. -/
  logf_rng_f16 : F
  /-- The table `__logf_lut_f16`. -/
  logf_lut_f16 : Fin 8 → F
  /-- The table `exp_tab_f16`. -/
  exp_tab_f16 : Fin 8 → F

/-! ## 16-bit integer lanes -/

/-- Reduction of an integer to the signed 16-bit range, wrapping around. -/
def wrap16 (z : Int) : Int := (z + 32768) % 65536 - 32768

/-- Saturation of an integer to the signed 16-bit range. -/
def sat16 (z : Int) : Int :=
  if 32767 < z then 32767 else if z < -32768 then -32768 else z

/-- Broadcast of a scalar, `vdupq_n`. -/
def vdupq_n {α : Type} (c : α) : Vec α := fun _ => c

/-- The C operator `+` on `q15x8_t`. -/
def vaddq_s16 (a b : Vec Int) : Vec Int := fun i => wrap16 (a i + b i)

/-- The C operator `-` on `q15x8_t`. -/
def vsubq_s16 (a b : Vec Int) : Vec Int := fun i => wrap16 (a i - b i)

/-- The C operator `&` on `q15x8_t`. -/
def vandq_s16 (a b : Vec Int) : Vec Int := fun i => Int.land (a i) (b i)

/-- The C operator `>>` on `int16x8_t` by a constant: arithmetic shift. -/
def vshrq_n_s16 (a : Vec Int) (k : Nat) : Vec Int := fun i => a i >>> k

/-- The C operator `<<` on `int16x8_t` by a constant, wrapping around. -/
def vshlq_n_s16 (a : Vec Int) (k : Nat) : Vec Int := fun i => wrap16 (a i * 2 ^ k)

/-- Saturating addition `vqaddq_s16`. -/
def vqaddq_s16 (a b : Vec Int) : Vec Int := fun i => sat16 (a i + b i)

/-- Saturating shift left by a constant, `vqshlq_n_s16`. -/
def vqshlq_n_s16 (a : Vec Int) (k : Nat) : Vec Int := fun i => sat16 (a i * 2 ^ k)

/-- Signed comparison against a scalar, `vcmpltq_n_s16`. -/
def vcmpltq_n_s16 (a : Vec Int) (c : Int) : Vec Bool := fun i => decide (a i < c)

/-! ## Floating lanes -/

section Intrinsics

variable {F : Type}

/-- Lane-wise product, `vmulq` and the C operator `*`. -/
def vmulq (A : Arith F) (a b : Vec F) : Vec F := fun i => A.mul (a i) (b i)

/-- Product with a scalar, `vmulq_n_f16`. -/
def vmulq_n (A : Arith F) (a : Vec F) (c : F) : Vec F := fun i => A.mul (a i) c

/-- Lane-wise difference, the C operator `-`. -/
def vsubq (A : Arith F) (a b : Vec F) : Vec F := fun i => A.sub (a i) (b i)

/-- Fused `a + b * c` on vectors, `vfmaq_f16`. -/
def vfmaq (A : Arith F) (a b c : Vec F) : Vec F := fun i => A.fma (a i) (b i) (c i)

/-- Fused `a + b * c` with a scalar `c`, `vfmaq_n_f16`. -/
def vfmaq_n (A : Arith F) (a b : Vec F) (c : F) : Vec F := fun i => A.fma (a i) (b i) c

/-- Fused `a * b + c` with a scalar addend `c`, `vfmasq_n_f16`. -/
def vfmasq_n (A : Arith F) (a b : Vec F) (c : F) : Vec F := fun i => A.fma c (a i) (b i)

/-- Fused `a - b * c` on vectors, `vfmsq_f16`. -/
def vfmsq (A : Arith F) (a b c : Vec F) : Vec F := fun i => A.fms (a i) (b i) (c i)

/-- Lane-wise absolute value, `vabsq`. -/
def vabsq (A : Lane F) (a : Vec F) : Vec F := fun i => A.abs (a i)

/-- Predicated broadcast `vdupq_m(inactive, a, p)`: lanes with a true predicate
take the scalar `a`, the others keep `inactive`. -/
def vdupq_m (inactive : Vec F) (a : F) (p : Vec Bool) : Vec F :=
  fun i => if p i then a else inactive i

/-- Predicated negation `vnegq_m(inactive, a, p)`: lanes with a true predicate
take `-a`, the others keep `inactive`. -/
def vnegq_m (A : Lane F) (inactive a : Vec F) (p : Vec Bool) : Vec F :=
  fun i => if p i then A.neg (a i) else inactive i

/-- Floating comparison `==` against a scalar, `vcmpeqq`. -/
def vcmpeqq_n (A : Lane F) (a : Vec F) (c : F) : Vec Bool := fun i => A.cmpeq (a i) c

/-- Floating comparison `<` against a scalar, `vcmpltq`. -/
def vcmpltq_n (A : Lane F) (a : Vec F) (c : F) : Vec Bool := fun i => A.cmplt (a i) c

/-- Read of the `.i` member of `any16x8_t` (and the cast to `int16x8_t`). -/
def reinterpret_s16 (A : Lane F) (a : Vec F) : Vec Int := fun i => A.bits (a i)

/-- Write of the `.i` member of `any16x8_t` (and the cast to `float16x8_t`). -/
def reinterpret_f16 (A : Lane F) (a : Vec Int) : Vec F := fun i => A.ofBits (a i)

/-- Conversion to integer, `vcvtq_s16_f16`. -/
def vcvtq_s16_f16 (A : Lane F) (a : Vec F) : Vec Int := fun i => A.cvt_s16_f16 (a i)

/-- Conversion from integer, `vcvtq_f16_s16`. -/
def vcvtq_f16_s16 (A : Lane F) (a : Vec Int) : Vec F := fun i => A.cvt_f16_s16 (a i)

end Intrinsics

/-! ## The kernels of `arm_vec_math_f16.h` -/

section Kernels

variable {F : Type}

/-- Fast inverse approximation with three Newton passes (header lines 44-75).
The successive values of the union `xinv` and of `b` are numbered. -/
def vrecip_medprec_f16 (A : Lane F) (x : Vec F) : Vec F :=
  let ax := vabsq A x
  let xinv0 := ax
  let m := vsubq_s16 (vdupq_n 0x03c00) (vandq_s16 (reinterpret_s16 A xinv0) (vdupq_n 0x07c00))
  let xinv1 := reinterpret_f16 A (vaddq_s16 (reinterpret_s16 A xinv0) m)
  let xinv2 := vsubq A.toArith (vdupq_n A.c1_41176471)
    (vmulq A.toArith (vdupq_n A.c0_47058824) xinv1)
  let xinv3 := reinterpret_f16 A (vaddq_s16 (reinterpret_s16 A xinv2) m)
  let b1 := vsubq A.toArith (vdupq_n A.two) (vmulq A.toArith xinv3 ax)
  let xinv4 := vmulq A.toArith xinv3 b1
  let b2 := vsubq A.toArith (vdupq_n A.two) (vmulq A.toArith xinv4 ax)
  let xinv5 := vmulq A.toArith xinv4 b2
  let b3 := vsubq A.toArith (vdupq_n A.two) (vmulq A.toArith xinv5 ax)
  let xinv6 := vmulq A.toArith xinv5 b3
  let xinv7 := vdupq_m xinv6 A.inf (vcmpeqq_n A x A.zero)
  vnegq_m A xinv7 xinv7 (vcmpltq_n A x A.zero)

/-- Fast inverse approximation with four Newton passes (header lines 78-112). -/
def vrecip_hiprec_f16 (A : Lane F) (x : Vec F) : Vec F :=
  let ax := vabsq A x
  let xinv0 := ax
  let m := vsubq_s16 (vdupq_n 0x03c00) (vandq_s16 (reinterpret_s16 A xinv0) (vdupq_n 0x07c00))
  let xinv1 := reinterpret_f16 A (vaddq_s16 (reinterpret_s16 A xinv0) m)
  let xinv2 := vsubq A.toArith (vdupq_n A.c1_41176471)
    (vmulq A.toArith (vdupq_n A.c0_47058824) xinv1)
  let xinv3 := reinterpret_f16 A (vaddq_s16 (reinterpret_s16 A xinv2) m)
  let b1 := vsubq A.toArith (vdupq_n A.two) (vmulq A.toArith xinv3 ax)
  let xinv4 := vmulq A.toArith xinv3 b1
  let b2 := vsubq A.toArith (vdupq_n A.two) (vmulq A.toArith xinv4 ax)
  let xinv5 := vmulq A.toArith xinv4 b2
  let b3 := vsubq A.toArith (vdupq_n A.two) (vmulq A.toArith xinv5 ax)
  let xinv6 := vmulq A.toArith xinv5 b3
  let b4 := vsubq A.toArith (vdupq_n A.two) (vmulq A.toArith xinv6 ax)
  let xinv7 := vmulq A.toArith xinv6 b4
  let xinv8 := vdupq_m xinv7 A.inf (vcmpeqq_n A x A.zero)
  vnegq_m A xinv8 xinv8 (vcmpltq_n A x A.zero)

/-- Division as a product with the four-pass reciprocal (header lines 114-118). -/
def vdiv_f16 (A : Lane F) (num den : Vec F) : Vec F :=
  vmulq A.toArith num (vrecip_hiprec_f16 A den)

/-- Degree-7 polynomial from an 8-entry table (header lines 128-141). -/
def vtaylor_polyq_f16 (A : Arith F) (x : Vec F) (coeffs : Fin 8 → F) : Vec F :=
  let a := vfmasq_n A (vdupq_n (coeffs 4)) x (coeffs 0)
  let b := vfmasq_n A (vdupq_n (coeffs 6)) x (coeffs 2)
  let c := vfmasq_n A (vdupq_n (coeffs 5)) x (coeffs 1)
  let d := vfmasq_n A (vdupq_n (coeffs 7)) x (coeffs 3)
  let x2 := vmulq A x x
  let x4 := vmulq A x2 x2
  let res := vfmaq A (vfmaq A a b x2) (vfmaq A c d x2) x4
  res

/-- Split of a lane into mantissa and exponent (header lines 143-157); the
value stored through the pointer `e` is the second component. -/
def vmant_exp_f16 (A : Lane F) (x : Vec F) : Vec F × Vec Int :=
  let r_i0 := reinterpret_s16 A x
  let n0 := vshrq_n_s16 r_i0 10
  let n := vsubq_s16 n0 (vdupq_n 15)
  let r_i1 := vsubq_s16 r_i0 (vshlq_n_s16 n 10)
  (reinterpret_f16 A r_i1, n)

/-- The value of `vecAcc0` in `vlogq_f16` before the zero lanes are
overwritten (header lines 170-214). -/
def vlogq_f16_poly (A : Lane F) (vecIn : Vec F) : Vec F :=
  let vecTmpFlt1 := (vmant_exp_f16 A vecIn).1
  let vecExpUnBiased := (vmant_exp_f16 A vecIn).2
  let vecTmpFlt0 := vmulq A.toArith vecTmpFlt1 vecTmpFlt1
  let vecAcc0 := vdupq_n (A.logf_lut_f16 0)
  let vecAcc0 := vfmaq_n A.toArith vecAcc0 vecTmpFlt1 (A.logf_lut_f16 4)
  let vecAcc1 := vdupq_n (A.logf_lut_f16 2)
  let vecAcc1 := vfmaq_n A.toArith vecAcc1 vecTmpFlt1 (A.logf_lut_f16 6)
  let vecAcc2 := vdupq_n (A.logf_lut_f16 1)
  let vecAcc2 := vfmaq_n A.toArith vecAcc2 vecTmpFlt1 (A.logf_lut_f16 5)
  let vecAcc3 := vdupq_n (A.logf_lut_f16 3)
  let vecAcc3 := vfmaq_n A.toArith vecAcc3 vecTmpFlt1 (A.logf_lut_f16 7)
  let vecAcc0 := vfmaq A.toArith vecAcc0 vecAcc1 vecTmpFlt0
  let vecAcc2 := vfmaq A.toArith vecAcc2 vecAcc3 vecTmpFlt0
  let vecTmpFlt0 := vmulq A.toArith vecTmpFlt0 vecTmpFlt0
  let vecExpUnBiasedFlt := vcvtq_f16_s16 A vecExpUnBiased
  let vecAcc0 := vfmaq A.toArith vecAcc0 vecAcc2 vecTmpFlt0
  let vecAcc0 := vfmaq_n A.toArith vecAcc0 vecExpUnBiasedFlt A.logf_rng_f16
  vecAcc0

/-- Natural logarithm (header lines 160-218). -/
def vlogq_f16 (A : Lane F) (vecIn : Vec F) : Vec F :=
  let vecAcc0 := vlogq_f16_poly A vecIn
  let vecAcc0 := vdupq_m vecAcc0 (A.neg A.inf) (vcmpeqq_n A vecIn A.zero)
  vecAcc0

/-- The local `m` of `vexpq_f16` (header line 224). -/
def vexpq_f16_m (A : Lane F) (x : Vec F) : Vec Int :=
  vcvtq_s16_f16 A (vmulq_n A.toArith x A.c1_4426950408)

/-- The local `val` of `vexpq_f16` (header line 225). -/
def vexpq_f16_val (A : Lane F) (x : Vec F) : Vec F :=
  vfmsq A.toArith x (vcvtq_f16_s16 A (vexpq_f16_m A x)) (vdupq_n A.c0_6931471805)

/-- The local `poly` of `vexpq_f16` after line 228. -/
def vexpq_f16_poly (A : Lane F) (x : Vec F) : Vec F :=
  vtaylor_polyq_f16 A.toArith (vexpq_f16_val A x) A.exp_tab_f16

/-- The local `poly` of `vexpq_f16` after the reconstruction of line 231. -/
def vexpq_f16_recon (A : Lane F) (x : Vec F) : Vec F :=
  reinterpret_f16 A
    (vqaddq_s16 (reinterpret_s16 A (vexpq_f16_poly A x)) (vqshlq_n_s16 (vexpq_f16_m A x) 10))

/-- Exponential (header lines 220-235). -/
def vexpq_f16 (A : Lane F) (x : Vec F) : Vec F :=
  let m := vexpq_f16_m A x
  let poly := vexpq_f16_recon A x
  let poly := vdupq_m poly A.zero (vcmpltq_n_s16 m (-14))
  poly

/-- The loop of `arm_vec_exponent_f16` (header lines 241-244) from the state
`(r, nb)`; the last component of the result counts the executions of `vmulq`,
starting from `cnt`. -/
def arm_vec_exponent_f16_loop (A : Arith F) (x : Vec F) (r : Vec F) (nb : Int) (cnt : Nat) :
    Vec F × Nat :=
  if 0 < nb then arm_vec_exponent_f16_loop A x (vmulq A r x) (wrap16 (nb - 1)) (cnt + 1)
  else (r, cnt)
termination_by nb.toNat
decreasing_by
  simp only [wrap16]
  omega

/-- Integer power by repeated products (header lines 237-246), with the number
of products executed; `nb` is an `int16_t`. -/
def arm_vec_exponent_f16_run (A : Arith F) (x : Vec F) (nb : Int) : Vec F × Nat :=
  let r := x
  let nb := wrap16 (nb - 1)
  arm_vec_exponent_f16_loop A x r nb 0

/-- Integer power by repeated products (header lines 237-246): the value
returned. -/
def arm_vec_exponent_f16 (A : Arith F) (x : Vec F) (nb : Int) : Vec F :=
  (arm_vec_exponent_f16_run A x nb).1

/-- Power as exponential of a scaled logarithm (header lines 248-253). -/
def vpowq_f16 (A : Lane F) (val n : Vec F) : Vec F :=
  vexpq_f16 A (vmulq A.toArith n (vlogq_f16 A val))

end Kernels

/-! ## Exact arithmetic -/

/-- Exact reading of the floating arithmetic in a commutative ring: no
rounding. -/
def Arith.exact (R : Type) [CommRing R] : Arith R where
  mul a b := a * b
  sub a b := a - b
  fma a b c := a + b * c
  fms a b c := a - b * c

/-- Rounding toward zero to an integer. -/
def truncate {K : Type} [LinearOrderedField K] [FloorRing K] (x : K) : Int :=
  if 0 ≤ x then ⌊x⌋ else ⌈x⌉

/-- What the exact reading leaves open: the two views of `any16x8_t`, the value
standing for `F16INFINITY`, the value `ln2` that the literals `0.6931471805f16`
and `__logf_rng_f16` stand for (`1.4426950408f16` stands for its inverse) and
the two tables. -/
structure ExactParams (K : Type) where
  /-- The `.i` view. -/
  bits : K → Int
  /-- The `.f` view. -/
  ofBits : Int → K
  /-- The value standing for `F16INFINITY`. -/
  inf : K
  /-- The value of the logarithm of two. -/
  ln2 : K
  /-- The table `__logf_lut_f16`. -/
  logf_lut_f16 : Fin 8 → K
  /-- The table `exp_tab_f16`. -/
  exp_tab_f16 : Fin 8 → K

/-- Exact reading of a lane in an ordered field: arithmetic without rounding,
conversion to `int16` by truncation with saturation (VCVT rounds toward zero),
conversion from `int16` by the cast. -/
def Lane.exact (K : Type) [LinearOrderedField K] [FloorRing K] (P : ExactParams K) : Lane K where
  toArith := Arith.exact K
  abs x := |x|
  neg x := -x
  cmpeq a b := decide (a = b)
  cmplt a b := decide (a < b)
  bits := P.bits
  ofBits := P.ofBits
  cvt_s16_f16 x := sat16 (truncate x)
  cvt_f16_s16 m := (m : K)
  zero := 0
  inf := P.inf
  two := 2
  c1_41176471 := 1.41176471
  c0_47058824 := 0.47058824
  c1_4426950408 := P.ln2⁻¹
  c0_6931471805 := P.ln2
  logf_rng_f16 := P.ln2
  logf_lut_f16 := P.logf_lut_f16
  exp_tab_f16 := P.exp_tab_f16

/-! ## Binary16 bit patterns -/

/-- A half-precision lane as its 16-bit pattern: sign in bit 15, exponent field
in bits 10-14 (bias 15), fraction in bits 0-9. -/
abbrev Half : Type := Fin 65536

/-- The lane with the given pattern (reduced to 16 bits). -/
def mkHalf (n : Nat) : Half := ⟨n % 65536, Nat.mod_lt _ (by decide)⟩

/-- Sign bit. -/
def Half.signBit (b : Half) : Bool := decide (32768 ≤ b.val)

/-- Exponent field. -/
def Half.expField (b : Half) : Nat := b.val / 1024 % 32

/-- Fraction field. -/
def Half.frac (b : Half) : Nat := b.val % 1024

/-- Not-a-number: exponent field 31 and a non-zero fraction. -/
def Half.isNaN (b : Half) : Bool := decide (0x7C00 < b.val % 32768)

/-- Infinity of either sign. -/
def Half.isInf (b : Half) : Bool := decide (b.val % 32768 = 0x7C00)

/-- Zero of either sign. -/
def Half.isZero (b : Half) : Bool := decide (b.val % 32768 = 0)

/-- Normal number: exponent field between 1 and 30. -/
def Half.isNormal (b : Half) : Bool := decide (1 ≤ b.expField ∧ b.expField ≤ 30)

/-- Magnitude of a sign-free pattern `m` in units of `2^-24`: `t` for a
subnormal, `(1024 + t) * 2^(e-1)` otherwise. At `0x7C00` this is `2^40`, the
value `65536` at which rounding overflows. -/
def magUnits (m : Nat) : Nat :=
  if m / 1024 = 0 then m else (1024 + m % 1024) * 2 ^ (m / 1024 - 1)

/-- Value of a lane in units of `2^-24`, as a signed integer. -/
def Half.units (b : Half) : Int :=
  if b.val < 32768 then (magUnits b.val : Int) else - (magUnits (b.val - 32768) : Int)

/-- Value of a finite lane as a rational. -/
def Half.toRat (b : Half) : ℚ := (b.units : ℚ) / 16777216

/-- Order key: finite and infinite lanes compare like their keys. -/
def Half.key (b : Half) : Int :=
  if b.val < 32768 then (b.val : Int) else - ((b.val : Int) - 32768)

/-- The `.i` view: the pattern as a signed 16-bit integer. -/
def Half.toS16 (b : Half) : Int :=
  if b.val < 32768 then (b.val : Int) else (b.val : Int) - 65536

/-- The `.f` view: a 16-bit integer as a pattern. -/
def Half.ofS16 (z : Int) : Half := mkHalf (z % 65536).toNat

/-- Sign bit cleared. -/
def Half.abs (b : Half) : Half := mkHalf (b.val % 32768)

/-- Sign bit flipped. -/
def Half.neg (b : Half) : Half := mkHalf (b.val + 32768)

/-- Floating `==`: false on a NaN, true between the two zeros. -/
def Half.cmpeq (a b : Half) : Bool := !a.isNaN && !b.isNaN && decide (a.key = b.key)

/-- Floating `<`: false on a NaN. -/
def Half.cmplt (a b : Half) : Bool := !a.isNaN && !b.isNaN && decide (a.key < b.key)

/-- The largest sign-free pattern at most `0x7C00` whose magnitude is at most
`num / den`, found bit by bit below bit `k` above the bits already set in `acc`
(magnitudes grow with the pattern). -/
def floorMag (num den : Nat) : Nat → Nat → Nat
  | 0, acc => acc
  | k + 1, acc =>
    if acc + 2 ^ k ≤ 0x7C00 ∧ magUnits (acc + 2 ^ k) * den ≤ num * 16777216 then
      floorMag num den k (acc + 2 ^ k)
    else floorMag num den k acc

/-- Round the non-negative fraction `num / den` to the nearest sign-free
pattern, ties to the even one; `0x7C00` (infinity) from `65520` on. -/
def roundMag (num den : Nat) : Nat :=
  let lo := floorMag num den 15 0
  if lo = 0x7C00 then 0x7C00
  else if 2 * (num * 16777216) < (magUnits lo + magUnits (lo + 1)) * den then lo
  else if (magUnits lo + magUnits (lo + 1)) * den < 2 * (num * 16777216) then lo + 1
  else if lo % 2 = 0 then lo else lo + 1

/-- Round the fraction `z / den` (with `0 < den`) to the nearest lane, ties to
even; `negZero` is the sign of the result when `z` is zero. -/
def roundFrac (z : Int) (den : Nat) (negZero : Bool) : Half :=
  if z = 0 then (if negZero then mkHalf 0x8000 else mkHalf 0x0000)
  else if z < 0 then mkHalf (0x8000 + roundMag z.natAbs den)
  else mkHalf (roundMag z.natAbs den)

/-- Floating arithmetic on patterns: the part of a lane that rounds. -/
structure HalfOps extends Arith Half where
  /-- Conversion `vcvtq_s16_f16`. -/
  cvt_s16_f16 : Half → Int
  /-- Conversion `vcvtq_f16_s16`. -/
  cvt_f16_s16 : Int → Half

/-- The two coefficient tables of `arm_common_tables_f16.h`. -/
structure Tables where
  /-- The table `__logf_lut_f16`. -/
  logf_lut_f16 : Fin 8 → Half
  /-- The table `exp_tab_f16`. -/
  exp_tab_f16 : Fin 8 → Half

/-- A lane of binary16 patterns: sign operations, comparisons and the views of
`any16x8_t` act on the pattern, literals are rounded to nearest, the rounding
arithmetic is `R`. -/
def halfLane (R : HalfOps) (T : Tables) : Lane Half where
  toArith := R.toArith
  abs := Half.abs
  neg := Half.neg
  cmpeq := Half.cmpeq
  cmplt := Half.cmplt
  bits := Half.toS16
  ofBits := Half.ofS16
  cvt_s16_f16 := R.cvt_s16_f16
  cvt_f16_s16 := R.cvt_f16_s16
  zero := mkHalf 0x0000
  inf := mkHalf 0x7C00
  two := roundFrac 2 1 false
  c1_41176471 := roundFrac 141176471 100000000 false
  c0_47058824 := roundFrac 47058824 100000000 false
  c1_4426950408 := roundFrac 14426950408 10000000000 false
  c0_6931471805 := roundFrac 6931471805 10000000000 false
  logf_rng_f16 := roundFrac 693147180 1000000000 false
  logf_lut_f16 := T.logf_lut_f16
  exp_tab_f16 := T.exp_tab_f16

/-! ## IEEE-754 binary16 arithmetic -/

/-- The default quiet NaN. -/
def qNaN : Half := mkHalf 0x7E00

/-- Infinity with the given sign. -/
def infOf (negative : Bool) : Half := if negative then mkHalf 0xFC00 else mkHalf 0x7C00

/-- Product, rounded to nearest even. -/
def ieeeMul (a b : Half) : Half :=
  if a.isNaN || b.isNaN then qNaN
  else if a.isInf || b.isInf then
    if a.isZero || b.isZero then qNaN else infOf (a.signBit != b.signBit)
  else roundFrac (a.units * b.units) (2 ^ 48) (a.signBit != b.signBit)

/-- Fused `a + b * c`, rounded once to nearest even. -/
def ieeeFma (a b c : Half) : Half :=
  if a.isNaN || b.isNaN || c.isNaN then qNaN
  else if b.isInf || c.isInf then
    if b.isZero || c.isZero then qNaN
    else if a.isInf && (a.signBit != (b.signBit != c.signBit)) then qNaN
    else infOf (b.signBit != c.signBit)
  else if a.isInf then a
  else roundFrac (a.units * 2 ^ 24 + b.units * c.units) (2 ^ 48)
    (a.signBit && (b.signBit != c.signBit))

/-- Sum, rounded to nearest even. -/
def ieeeAdd (a b : Half) : Half :=
  if a.isNaN || b.isNaN then qNaN
  else if a.isInf then (if b.isInf && (a.signBit != b.signBit) then qNaN else a)
  else if b.isInf then b
  else roundFrac (a.units + b.units) (2 ^ 24) (a.signBit && b.signBit)

/-- Conversion to `int16`: toward zero, saturating, zero on a NaN. -/
def ieeeToS16 (a : Half) : Int :=
  if a.isNaN then 0
  else if a.isInf then (if a.signBit then -32768 else 32767)
  else sat16 (Int.tdiv a.units (2 ^ 24))

/-- IEEE-754 binary16 arithmetic: round to nearest even, default NaN, gradual
underflow. -/
def ieee : HalfOps where
  mul := ieeeMul
  sub a b := ieeeAdd a b.neg
  fma := ieeeFma
  fms a b c := ieeeFma a b.neg c
  cvt_s16_f16 := ieeeToS16
  cvt_f16_s16 m := roundFrac m 1 false

/-! ## Reference evaluation of the polynomial -/

/-- Reversal of the three bits of a table index. -/
def bitrev3 (k : Fin 8) : Fin 8 :=
  ⟨k.val % 2 * 4 + k.val / 2 % 2 * 2 + k.val / 4 % 2, by omega⟩

/-- The straightforward power series of degree 7 whose coefficient of `x^k` is
the table entry at the bit reversal of `k`. -/
def powerSeries {R : Type} [CommRing R] (c : Fin 8 → R) (x : R) : R :=
  ∑ k : Fin 8, c (bitrev3 k) * x ^ k.val

/-! ## The stages of the reciprocal kernels -/

section Stages

variable {F : Type}

/-- The value of `xinv.f` after the initial guess, header lines 50-57 of
`vrecip_medprec_f16` and, with the same text, lines 84-91 of
`vrecip_hiprec_f16`. -/
def vrecip_f16_guess (A : Lane F) (x : Vec F) : Vec F :=
  let ax := vabsq A x
  let xinv0 := ax
  let m := vsubq_s16 (vdupq_n 0x03c00) (vandq_s16 (reinterpret_s16 A xinv0) (vdupq_n 0x07c00))
  let xinv1 := reinterpret_f16 A (vaddq_s16 (reinterpret_s16 A xinv0) m)
  let xinv2 := vsubq A.toArith (vdupq_n A.c1_41176471)
    (vmulq A.toArith (vdupq_n A.c0_47058824) xinv1)
  let xinv3 := reinterpret_f16 A (vaddq_s16 (reinterpret_s16 A xinv2) m)
  xinv3

/-- One Newton pass, `b = 2.0f16 - xinv.f * ax; xinv.f = xinv.f * b;` (header
lines 59-60 and their repetitions). -/
def vrecip_f16_newton (A : Lane F) (ax xinv : Vec F) : Vec F :=
  let b := vsubq A.toArith (vdupq_n A.two) (vmulq A.toArith xinv ax)
  vmulq A.toArith xinv b

/-- The two predicated fix-ups that end both kernels (header lines 68-72 and
105-109): infinity on the zero lanes, then the sign. -/
def vrecip_f16_finish (A : Lane F) (x xinv : Vec F) : Vec F :=
  let xinv := vdupq_m xinv A.inf (vcmpeqq_n A x A.zero)
  vnegq_m A xinv xinv (vcmpltq_n A x A.zero)

end Stages

/-! ## Exact values with binary16 views -/

/-- The views of `any16x8_t` for rational values: the `.i` view of a value is
the pattern of the nearest binary16 lane, ties to even, and the `.f` view of a
pattern is the value of the lane. The other fields are left open. -/
def ExactParams.binary16 (inf ln2 : ℚ) (logf_lut_f16 exp_tab_f16 : Fin 8 → ℚ) :
    ExactParams ℚ where
  bits q := (roundFrac q.num q.den false).toS16
  ofBits z := (Half.ofS16 z).toRat
  inf := inf
  ln2 := ln2
  logf_lut_f16 := logf_lut_f16
  exp_tab_f16 := exp_tab_f16

/-! ## Properties -/

theorem mkHalf_val (n : Nat) : (mkHalf n).val = n % 65536 := rfl

theorem wrap16_of_range (z : Int) (h1 : -32768 ≤ z) (h2 : z ≤ 32767) : wrap16 z = z := by
  unfold wrap16; omega

/-- The splitter on the lane with pattern `1024 * e + t` in the positive range. -/
theorem vmant_exp_f16_lane (R : HalfOps) (T : Tables) (x : Vec Half) (i : Fin 8)
    (hp : (x i).val < 32768) :
    ((vmant_exp_f16 (halfLane R T) x).1 i).val = (x i).val % 1024 + 15360
    ∧ (vmant_exp_f16 (halfLane R T) x).2 i = ((x i).val / 1024 : Nat) - 15 := by
  simp only [vmant_exp_f16, reinterpret_s16, reinterpret_f16, vshrq_n_s16, vsubq_s16,
    vshlq_n_s16, vdupq_n, halfLane, Half.toS16, Half.ofS16, mkHalf_val, if_pos hp,
    Int.shiftRight_eq_div_pow, wrap16]
  constructor <;> omega

theorem toRat_of_pos_normal (b : Half) (e t : Nat) (hb : b.val = 1024 * e + t) (ht : t < 1024)
    (he1 : 1 ≤ e) (he2 : e ≤ 31) :
    b.toRat = (1024 + (t : ℚ)) / 1024 * 2 ^ ((e : Int) - 15) := by
  have hlt : b.val < 32768 := by omega
  have hq : b.val / 1024 = e := by omega
  have hr : b.val % 1024 = t := by omega
  have hne : ¬ (e = 0) := by omega
  obtain ⟨k, rfl⟩ : ∃ k, e = k + 1 := ⟨e - 1, by omega⟩
  have hz : (2 : ℚ) ^ (((k + 1 : Nat) : Int) - 15) = 2 ^ k / 16384 := by
    have : (((k + 1 : Nat) : Int) - 15) = (k : Int) - 14 := by push_cast; ring
    rw [this, zpow_sub₀ (by norm_num : (2 : ℚ) ≠ 0), zpow_natCast]
    norm_num
  rw [hz]
  simp only [Half.toRat, Half.units, if_pos hlt, magUnits, hq, hr, if_neg hne]
  push_cast
  ring

/-- Claim C1, amended: on a positive normal lane the splitter returns a
mantissa `r` with `1 ≤ r < 2` and the integer `n` equal to the exponent field
minus 15, and the lane equals `r * 2^n` as a rational. -/
theorem vmant_exp_f16_pos_normal (R : HalfOps) (T : Tables) (x : Vec Half) (i : Fin 8)
    (hn : (x i).isNormal = true) (hp : (x i).signBit = false) :
    1 ≤ ((vmant_exp_f16 (halfLane R T) x).1 i).toRat
    ∧ ((vmant_exp_f16 (halfLane R T) x).1 i).toRat < 2
    ∧ (vmant_exp_f16 (halfLane R T) x).2 i = ((x i).expField : Int) - 15
    ∧ (x i).toRat = ((vmant_exp_f16 (halfLane R T) x).1 i).toRat
        * 2 ^ ((vmant_exp_f16 (halfLane R T) x).2 i) := by
  have hlt : (x i).val < 32768 := by
    simpa [Half.signBit] using hp
  simp only [Half.isNormal, Half.expField, decide_eq_true_eq] at hn
  obtain ⟨hr, hnE⟩ := vmant_exp_f16_lane R T x i hlt
  have hmod : (x i).val / 1024 % 32 = (x i).val / 1024 := by omega
  have ht : (x i).val % 1024 < 1024 := Nat.mod_lt _ (by norm_num)
  have hrv := toRat_of_pos_normal ((vmant_exp_f16 (halfLane R T) x).1 i) 15 ((x i).val % 1024)
    (by omega) ht (by norm_num) (by norm_num)
  have hxv := toRat_of_pos_normal (x i) ((x i).val / 1024) ((x i).val % 1024)
    (by omega) ht (by omega) (by omega)
  have h0 : (0 : ℚ) ≤ (((x i).val % 1024 : Nat) : ℚ) := Nat.cast_nonneg _
  have h1 : (((x i).val % 1024 : Nat) : ℚ) < 1024 := by exact_mod_cast ht
  norm_num at hrv
  refine ⟨?_, ?_, ?_, ?_⟩
  · rw [hrv, le_div_iff₀ (by norm_num)]; linarith
  · rw [hrv, div_lt_iff₀ (by norm_num)]; linarith
  · rw [hnE, Half.expField, hmod]
  · rw [hxv, hrv, hnE]

/-- The splitter on the lane `0x4500` (the value 5), an instance of claim C1 as
amended. -/
theorem vmant_exp_f16_pos_normal_witness :
    1 ≤ ((vmant_exp_f16 (halfLane ieee ⟨fun _ => mkHalf 0, fun _ => mkHalf 0⟩)
        (vdupq_n (mkHalf 0x4500))).1 0).toRat
    ∧ ((vmant_exp_f16 (halfLane ieee ⟨fun _ => mkHalf 0, fun _ => mkHalf 0⟩)
        (vdupq_n (mkHalf 0x4500))).1 0).toRat < 2
    ∧ (vmant_exp_f16 (halfLane ieee ⟨fun _ => mkHalf 0, fun _ => mkHalf 0⟩)
        (vdupq_n (mkHalf 0x4500))).2 0 = (((vdupq_n (mkHalf 0x4500) : Vec Half) 0).expField : Int) - 15
    ∧ ((vdupq_n (mkHalf 0x4500) : Vec Half) 0).toRat
      = ((vmant_exp_f16 (halfLane ieee ⟨fun _ => mkHalf 0, fun _ => mkHalf 0⟩)
        (vdupq_n (mkHalf 0x4500))).1 0).toRat
        * 2 ^ ((vmant_exp_f16 (halfLane ieee ⟨fun _ => mkHalf 0, fun _ => mkHalf 0⟩)
        (vdupq_n (mkHalf 0x4500))).2 0) :=
  vmant_exp_f16_pos_normal ieee ⟨fun _ => mkHalf 0, fun _ => mkHalf 0⟩ (vdupq_n (mkHalf 0x4500)) 0
    (by decide) (by decide)


/-- Claim C1 fails on the normal lane `0xBC00` (the value -1): the exponent
field is 15 but the splitter returns `n = -32`, with the mantissa `0x3C00`
(the value 1), and `1 * 2^(-32)` is not `-1`. -/
theorem vmant_exp_f16_neg_one :
    (mkHalf 0xBC00).isNormal = true
    ∧ (vmant_exp_f16 (halfLane ieee ⟨fun _ => mkHalf 0, fun _ => mkHalf 0⟩)
      (vdupq_n (mkHalf 0xBC00))).2 0 = -32
    ∧ (vmant_exp_f16 (halfLane ieee ⟨fun _ => mkHalf 0, fun _ => mkHalf 0⟩)
      (vdupq_n (mkHalf 0xBC00))).1 0 = mkHalf 0x3C00
    ∧ ((mkHalf 0xBC00).expField : Int) - 15 = 0
    ∧ (mkHalf 0xBC00).toRat = -1
    ∧ (mkHalf 0x3C00).toRat * 2 ^ (-32 : Int) ≠ (mkHalf 0xBC00).toRat := by
  refine ⟨by decide, by decide, by decide, by decide, ?_, ?_⟩
  · norm_num [Half.toRat, Half.units, magUnits, mkHalf]
  · norm_num [Half.toRat, Half.units, magUnits, mkHalf]

/-- Claim C2: in exact arithmetic over any commutative ring a lane of
`vtaylor_polyq_f16` is `c0 + c4 x + c2 x^2 + c6 x^3 + c1 x^4 + c5 x^5 + c3 x^6
+ c7 x^7`, the power series whose coefficient of `x^k` is the table entry at
the bit reversal of `k`. -/
theorem vtaylor_polyq_f16_power_series (R : Type) [CommRing R] (x : Vec R) (c : Fin 8 → R)
    (i : Fin 8) :
    vtaylor_polyq_f16 (Arith.exact R) x c i
      = c 0 + c 4 * x i + c 2 * x i ^ 2 + c 6 * x i ^ 3 + c 1 * x i ^ 4 + c 5 * x i ^ 5
        + c 3 * x i ^ 6 + c 7 * x i ^ 7
    ∧ vtaylor_polyq_f16 (Arith.exact R) x c i = powerSeries c (x i) := by
  have hb : ∀ k : Fin 8, bitrev3 k
      = if k = 0 then 0 else if k = 1 then 4 else if k = 2 then 2 else if k = 3 then 6
        else if k = 4 then 1 else if k = 5 then 5 else if k = 6 then 3 else 7 := by decide
  constructor
  · simp only [vtaylor_polyq_f16, vfmasq_n, vfmaq, vmulq, vdupq_n, Arith.exact]
    ring
  · simp only [vtaylor_polyq_f16, vfmasq_n, vfmaq, vmulq, vdupq_n, Arith.exact, powerSeries,
      Fin.sum_univ_eight, hb]
    have h3 : ((3 : Fin 8) : ℕ) = 3 := rfl
    have h4 : ((4 : Fin 8) : ℕ) = 4 := rfl
    have h5 : ((5 : Fin 8) : ℕ) = 5 := rfl
    have h6 : ((6 : Fin 8) : ℕ) = 6 := rfl
    have h7 : ((7 : Fin 8) : ℕ) = 7 := rfl
    simp [h3, h4, h5, h6, h7]
    ring

theorem isZero_iff (b : Half) : b.isZero = true ↔ (b.val = 0x0000 ∨ b.val = 0x8000) := by
  have := b.isLt
  simp only [Half.isZero, decide_eq_true_eq]
  omega

theorem cmpeq_zero (b : Half) : Half.cmpeq b (mkHalf 0x0000) = b.isZero := by
  have := b.isLt
  rw [Bool.eq_iff_iff]
  simp only [Half.cmpeq, Half.isNaN, Half.key, Half.isZero, mkHalf_val, Bool.and_eq_true,
    Bool.not_eq_true', decide_eq_true_eq, decide_eq_false_iff_not]
  split_ifs <;> omega

theorem cmplt_zero (b : Half) :
    Half.cmplt b (mkHalf 0x0000) = decide (0x8000 < b.val ∧ b.val ≤ 0xFC00) := by
  have := b.isLt
  rw [Bool.eq_iff_iff]
  simp only [Half.cmplt, Half.isNaN, Half.key, mkHalf_val, Bool.and_eq_true,
    Bool.not_eq_true', decide_eq_true_eq, decide_eq_false_iff_not]
  split_ifs <;> omega

theorem cmpeq_zero_of_zero (x : Half) (hz : x.val = 0x0000 ∨ x.val = 0x8000) :
    Half.cmpeq x (mkHalf 0x0000) = true := by
  rw [cmpeq_zero, isZero_iff]; exact hz

theorem cmplt_zero_of_zero (x : Half) (hz : x.val = 0x0000 ∨ x.val = 0x8000) :
    Half.cmplt x (mkHalf 0x0000) = false := by
  rw [cmplt_zero]
  simp only [decide_eq_false_iff_not]
  omega

theorem vrecip_medprec_f16_zero_lane (R : HalfOps) (T : Tables) (x : Vec Half) (i : Fin 8)
    (hz : (x i).val = 0x0000 ∨ (x i).val = 0x8000) :
    vrecip_medprec_f16 (halfLane R T) x i = mkHalf 0x7C00 := by
  simp only [vrecip_medprec_f16, vnegq_m, vdupq_m, vcmpeqq_n, vcmpltq_n, halfLane,
    cmpeq_zero_of_zero _ hz, cmplt_zero_of_zero _ hz]
  simp

theorem vrecip_hiprec_f16_zero_lane (R : HalfOps) (T : Tables) (x : Vec Half) (i : Fin 8)
    (hz : (x i).val = 0x0000 ∨ (x i).val = 0x8000) :
    vrecip_hiprec_f16 (halfLane R T) x i = mkHalf 0x7C00 := by
  simp only [vrecip_hiprec_f16, vnegq_m, vdupq_m, vcmpeqq_n, vcmpltq_n, halfLane,
    cmpeq_zero_of_zero _ hz, cmplt_zero_of_zero _ hz]
  simp

/-- Claim C3: on a lane whose input is a zero of either sign both reciprocals
return plus infinity (`0x7C00`): the zero test selects the lane and the sign
test does not, for every floating arithmetic and every pair of tables. -/
theorem vrecip_f16_zero (R : HalfOps) (T : Tables) (x : Vec Half) (i : Fin 8)
    (hz : (x i).val = 0x0000 ∨ (x i).val = 0x8000) :
    vcmpeqq_n (halfLane R T) x (halfLane R T).zero i = true
    ∧ vcmpltq_n (halfLane R T) x (halfLane R T).zero i = false
    ∧ vrecip_medprec_f16 (halfLane R T) x i = mkHalf 0x7C00
    ∧ vrecip_hiprec_f16 (halfLane R T) x i = mkHalf 0x7C00 :=
  ⟨cmpeq_zero_of_zero _ hz, cmplt_zero_of_zero _ hz, vrecip_medprec_f16_zero_lane R T x i hz,
    vrecip_hiprec_f16_zero_lane R T x i hz⟩

/-- Both reciprocals on the lane `0x8000` (minus zero), an instance of claim
C3. -/
theorem vrecip_f16_zero_witness :
    vrecip_medprec_f16 (halfLane ieee ⟨fun _ => mkHalf 0, fun _ => mkHalf 0⟩)
        (vdupq_n (mkHalf 0x8000)) 0 = mkHalf 0x7C00
    ∧ vrecip_hiprec_f16 (halfLane ieee ⟨fun _ => mkHalf 0, fun _ => mkHalf 0⟩)
        (vdupq_n (mkHalf 0x8000)) 0 = mkHalf 0x7C00 :=
  (vrecip_f16_zero ieee ⟨fun _ => mkHalf 0, fun _ => mkHalf 0⟩ (vdupq_n (mkHalf 0x8000)) 0
    (Or.inr (by decide))).2.2

theorem halfLane_cmplt (R : HalfOps) (T : Tables) : (halfLane R T).cmplt = Half.cmplt := rfl

theorem halfLane_cmpeq (R : HalfOps) (T : Tables) : (halfLane R T).cmpeq = Half.cmpeq := rfl

theorem halfLane_zero (R : HalfOps) (T : Tables) : (halfLane R T).zero = mkHalf 0x0000 := rfl

theorem halfLane_inf (R : HalfOps) (T : Tables) : (halfLane R T).inf = mkHalf 0x7C00 := rfl

theorem halfLane_neg (R : HalfOps) (T : Tables) : (halfLane R T).neg = Half.neg := rfl

theorem halfLane_abs (R : HalfOps) (T : Tables) : (halfLane R T).abs = Half.abs := rfl

theorem half_neg_val (b : Half) : b.neg.val = (b.val + 32768) % 65536 := rfl

theorem half_neg_neg (b : Half) : b.neg.neg = b := by
  have := b.isLt
  apply Fin.ext
  simp only [half_neg_val]
  omega

theorem half_abs_neg (b : Half) : b.neg.abs = b.abs := by
  have := b.isLt
  apply Fin.ext
  simp only [Half.abs, half_neg_val, mkHalf_val]
  omega

theorem half_isNaN_neg (b : Half) : b.neg.isNaN = b.isNaN := by
  have := b.isLt
  rw [Bool.eq_iff_iff]
  simp only [Half.isNaN, half_neg_val, decide_eq_true_eq]
  omega

theorem half_isZero_neg (b : Half) : b.neg.isZero = b.isZero := by
  have := b.isLt
  rw [Bool.eq_iff_iff]
  simp only [Half.isZero, half_neg_val, decide_eq_true_eq]
  omega

theorem cmplt_zero_neg (b : Half) (hnan : b.isNaN = false) (hz : b.isZero = false) :
    Half.cmplt b.neg (mkHalf 0x0000) = !Half.cmplt b (mkHalf 0x0000) := by
  have := b.isLt
  simp only [Half.isNaN, Half.isZero, decide_eq_false_iff_not] at hnan hz
  rw [Bool.eq_iff_iff]
  simp only [cmplt_zero, half_neg_val, Bool.not_eq_true', decide_eq_true_eq, decide_eq_false_iff_not]
  omega

theorem cmplt_zero_nan (b : Half) (hnan : b.isNaN = true) :
    Half.cmplt b (mkHalf 0x0000) = false := by
  simp [Half.cmplt, hnan]

/-- Claim C4, amended: sign antisymmetry of both reciprocals on every lane
that is neither a zero nor a NaN. -/
theorem vrecip_f16_antisymm (R : HalfOps) (T : Tables) (x : Vec Half) (i : Fin 8)
    (hnan : (x i).isNaN = false) (hz : (x i).isZero = false) :
    vrecip_medprec_f16 (halfLane R T) (fun j => (x j).neg) i
        = (vrecip_medprec_f16 (halfLane R T) x i).neg
    ∧ vrecip_medprec_f16 (halfLane R T) x i
        = (vrecip_medprec_f16 (halfLane R T) (fun j => (x j).neg) i).neg
    ∧ vrecip_hiprec_f16 (halfLane R T) (fun j => (x j).neg) i
        = (vrecip_hiprec_f16 (halfLane R T) x i).neg
    ∧ vrecip_hiprec_f16 (halfLane R T) x i
        = (vrecip_hiprec_f16 (halfLane R T) (fun j => (x j).neg) i).neg := by
  have hl := cmplt_zero_neg (x i) hnan hz
  have he : Half.cmpeq (x i) (mkHalf 0x0000) = false := by rw [cmpeq_zero, hz]
  have he' : Half.cmpeq (x i).neg (mkHalf 0x0000) = false := by rw [cmpeq_zero, half_isZero_neg, hz]
  have habs : vabsq (halfLane R T) (fun j => (x j).neg) = vabsq (halfLane R T) x := by
    funext j
    simp only [vabsq, halfLane_abs, half_abs_neg]
  have hl' : (halfLane R T).cmplt (x i).neg (halfLane R T).zero
      = !(halfLane R T).cmplt (x i) (halfLane R T).zero := by
    rw [halfLane_cmplt, halfLane_zero]; exact hl
  have he1 : (halfLane R T).cmpeq (x i) (halfLane R T).zero = false := by
    rw [halfLane_cmpeq, halfLane_zero]; exact he
  have he1' : (halfLane R T).cmpeq (x i).neg (halfLane R T).zero = false := by
    rw [halfLane_cmpeq, halfLane_zero]; exact he'
  have hm : vrecip_medprec_f16 (halfLane R T) (fun j => (x j).neg) i
        = (vrecip_medprec_f16 (halfLane R T) x i).neg := by
    simp only [vrecip_medprec_f16, habs, vnegq_m, vdupq_m, vcmpeqq_n, vcmpltq_n, hl', he1, he1']
    cases h : (halfLane R T).cmplt (x i) (halfLane R T).zero <;> simp [halfLane_neg, half_neg_neg]
  have hh : vrecip_hiprec_f16 (halfLane R T) (fun j => (x j).neg) i
        = (vrecip_hiprec_f16 (halfLane R T) x i).neg := by
    simp only [vrecip_hiprec_f16, habs, vnegq_m, vdupq_m, vcmpeqq_n, vcmpltq_n, hl', he1, he1']
    cases h : (halfLane R T).cmplt (x i) (halfLane R T).zero <;> simp [halfLane_neg, half_neg_neg]
  exact ⟨hm, by rw [hm, half_neg_neg], hh, by rw [hh, half_neg_neg]⟩

/-- The three-pass reciprocal on the lanes `0x4000` and `0xC000` (the values 2
and -2), an instance of claim C4 as amended. -/
theorem vrecip_f16_antisymm_witness :
    vrecip_medprec_f16 (halfLane ieee ⟨fun _ => mkHalf 0, fun _ => mkHalf 0⟩)
        (fun j => ((vdupq_n (mkHalf 0x4000) : Vec Half) j).neg) 0
        = (vrecip_medprec_f16 (halfLane ieee ⟨fun _ => mkHalf 0, fun _ => mkHalf 0⟩)
            (vdupq_n (mkHalf 0x4000)) 0).neg :=
  (vrecip_f16_antisymm ieee ⟨fun _ => mkHalf 0, fun _ => mkHalf 0⟩ (vdupq_n (mkHalf 0x4000)) 0
    (by decide) (by decide)).1

/-- Claim C4 fails on a NaN lane: the quiet NaN `0x7E00` and its negation
`0xFE00` get the same reciprocal, not reciprocals of opposite sign. -/
theorem vrecip_f16_nan_not_antisymm :
    (mkHalf 0x7E00).neg = mkHalf 0xFE00
    ∧ (mkHalf 0x7E00).isZero = false
    ∧ vrecip_medprec_f16 (halfLane ieee ⟨fun _ => mkHalf 0, fun _ => mkHalf 0⟩)
        (vdupq_n (mkHalf 0x7E00)) 0 = mkHalf 0x7E00
    ∧ vrecip_medprec_f16 (halfLane ieee ⟨fun _ => mkHalf 0, fun _ => mkHalf 0⟩)
        (vdupq_n (mkHalf 0xFE00)) 0 = mkHalf 0x7E00
    ∧ vrecip_medprec_f16 (halfLane ieee ⟨fun _ => mkHalf 0, fun _ => mkHalf 0⟩)
        (vdupq_n (mkHalf 0xFE00)) 0
      ≠ (vrecip_medprec_f16 (halfLane ieee ⟨fun _ => mkHalf 0, fun _ => mkHalf 0⟩)
        (vdupq_n (mkHalf 0x7E00)) 0).neg := by
  refine ⟨by decide, by decide, by decide, by decide, by decide⟩

theorem halfLane_bits (R : HalfOps) (T : Tables) : (halfLane R T).bits = Half.toS16 := rfl

theorem halfLane_ofBits (R : HalfOps) (T : Tables) : (halfLane R T).ofBits = Half.ofS16 := rfl

theorem vlogq_f16_lane (R : HalfOps) (T : Tables) (vecIn : Vec Half) (i : Fin 8) :
    vlogq_f16 (halfLane R T) vecIn i
      = if (vecIn i).isZero then mkHalf 0xFC00 else vlogq_f16_poly (halfLane R T) vecIn i := by
  simp only [vlogq_f16, vdupq_m, vcmpeqq_n, halfLane_cmpeq, halfLane_zero, cmpeq_zero,
    halfLane_neg, halfLane_inf]
  rfl

/-- Claim C5: a lane of `vlogq_f16` is minus infinity (`0xFC00`) when the input
lane is a zero of either sign, namely `0x0000` or `0x8000`, and the value of
the polynomial path otherwise, for every floating arithmetic and every pair of
tables. -/
theorem vlogq_f16_zero (R : HalfOps) (T : Tables) (vecIn : Vec Half) (i : Fin 8) :
    vcmpeqq_n (halfLane R T) vecIn (halfLane R T).zero i
        = decide ((vecIn i).val = 0x0000 ∨ (vecIn i).val = 0x8000)
    ∧ vlogq_f16 (halfLane R T) vecIn i
        = if (vecIn i).val = 0x0000 ∨ (vecIn i).val = 0x8000 then mkHalf 0xFC00
          else vlogq_f16_poly (halfLane R T) vecIn i := by
  have hz : (vecIn i).isZero = decide ((vecIn i).val = 0x0000 ∨ (vecIn i).val = 0x8000) := by
    rw [Bool.eq_iff_iff, isZero_iff]; simp
  constructor
  · simp only [vcmpeqq_n, halfLane_cmpeq, halfLane_zero, cmpeq_zero, hz]
  · rw [vlogq_f16_lane, hz]
    simp

/-- Claim C6: a lane of `vexpq_f16` is `+0` when the integer quotient of that
lane is below -14 and otherwise the pattern of `poly` plus, with saturation,
the saturated `m << 10`; it is a function of the same lane of the input. -/
theorem vexpq_f16_guard (R : HalfOps) (T : Tables) (x : Vec Half) (i : Fin 8) :
    vexpq_f16 (halfLane R T) x i
        = (if vexpq_f16_m (halfLane R T) x i < -14 then mkHalf 0x0000
           else Half.ofS16 (sat16 ((vexpq_f16_poly (halfLane R T) x i).toS16
                  + sat16 (vexpq_f16_m (halfLane R T) x i * 2 ^ 10))))
    ∧ vexpq_f16_m (halfLane R T) x i = R.cvt_s16_f16 (R.mul (x i) (halfLane R T).c1_4426950408)
    ∧ ∀ y : Vec Half, y i = x i → vexpq_f16 (halfLane R T) y i = vexpq_f16 (halfLane R T) x i := by
  refine ⟨?_, rfl, ?_⟩
  · simp only [vexpq_f16, vexpq_f16_recon, vdupq_m, vcmpltq_n_s16, reinterpret_f16,
      reinterpret_s16, vqaddq_s16, vqshlq_n_s16, halfLane_zero, halfLane_bits, halfLane_ofBits,
      decide_eq_true_eq]
  · intro y hy
    simp only [vexpq_f16, vexpq_f16_recon, vexpq_f16_poly, vexpq_f16_val, vexpq_f16_m,
      vtaylor_polyq_f16, vdupq_m, vcmpltq_n_s16, reinterpret_f16, reinterpret_s16, vqaddq_s16,
      vqshlq_n_s16, vcvtq_s16_f16, vcvtq_f16_s16, vmulq_n, vmulq, vfmsq, vfmaq, vfmasq_n,
      vdupq_n, hy]

/-- Two inputs that agree on lane 3 only (1.0 there, -10.0 against 1.0
elsewhere) give the same lane 3 of `vexpq_f16`, an instance of claim C6. -/
theorem vexpq_f16_guard_witness :
    vexpq_f16 (halfLane ieee ⟨fun _ => mkHalf 0, fun _ => mkHalf 0⟩)
        (fun j => if j = 3 then mkHalf 0x3C00 else mkHalf 0xC900) 3
      = vexpq_f16 (halfLane ieee ⟨fun _ => mkHalf 0, fun _ => mkHalf 0⟩)
        (vdupq_n (mkHalf 0x3C00)) 3 :=
  (vexpq_f16_guard ieee ⟨fun _ => mkHalf 0, fun _ => mkHalf 0⟩ (vdupq_n (mkHalf 0x3C00)) 3).2.2
    (fun j => if j = 3 then mkHalf 0x3C00 else mkHalf 0xC900) rfl

theorem sat16_of_range (z : Int) (h1 : -32768 ≤ z) (h2 : z ≤ 32767) : sat16 z = z := by
  unfold sat16
  split_ifs <;> omega

theorem truncate_err {K : Type} [LinearOrderedField K] [FloorRing K] (q : K) :
    -1 < q - (truncate q : K) ∧ q - (truncate q : K) < 1 := by
  unfold truncate
  split_ifs with h
  · have h1 := Int.floor_le q
    have h2 := Int.lt_floor_add_one q
    constructor <;> linarith
  · have h1 := Int.le_ceil q
    have h2 := Int.ceil_lt_add_one q
    constructor <;> linarith

/-- Claim C7, amended: in exact arithmetic the quotient is truncated toward
zero, so the reduced value lies strictly between `-ln2` and `ln2`. -/
theorem vexpq_f16_range_reduction (K : Type) [LinearOrderedField K] [FloorRing K]
    (P : ExactParams K) (hL : 0 < P.ln2) (x : Vec K) (i : Fin 8)
    (hlo : -32768 ≤ truncate (x i / P.ln2)) (hhi : truncate (x i / P.ln2) ≤ 32767) :
    vexpq_f16_m (Lane.exact K P) x i = truncate (x i / P.ln2)
    ∧ vexpq_f16_val (Lane.exact K P) x i
        = x i - (vexpq_f16_m (Lane.exact K P) x i : K) * P.ln2
    ∧ -P.ln2 < vexpq_f16_val (Lane.exact K P) x i
    ∧ vexpq_f16_val (Lane.exact K P) x i < P.ln2 := by
  have hm : vexpq_f16_m (Lane.exact K P) x i = truncate (x i / P.ln2) := by
    simp only [vexpq_f16_m, vcvtq_s16_f16, vmulq_n, Lane.exact, Arith.exact]
    rw [← div_eq_mul_inv, sat16_of_range _ hlo hhi]
  have hv : vexpq_f16_val (Lane.exact K P) x i
        = x i - (vexpq_f16_m (Lane.exact K P) x i : K) * P.ln2 := by
    simp only [vexpq_f16_val, vfmsq, vcvtq_f16_s16, vdupq_n, Lane.exact, Arith.exact]
  obtain ⟨e1, e2⟩ := truncate_err (x i / P.ln2)
  have hx : x i = x i / P.ln2 * P.ln2 := by field_simp
  have hval : vexpq_f16_val (Lane.exact K P) x i
      = (x i / P.ln2 - (truncate (x i / P.ln2) : K)) * P.ln2 := by
    rw [hv, hm]; nlinarith [hx]
  refine ⟨hm, hv, ?_, ?_⟩
  · rw [hval]; nlinarith
  · rw [hval]; nlinarith

/-- Range reduction of `x = 1` with `ln2 = 0.6931471805` over the rationals,
an instance of claim C7 as amended. -/
theorem vexpq_f16_range_reduction_witness :
    vexpq_f16_m (Lane.exact ℚ ⟨fun _ => 0, fun _ => 0, 0, 6931471805 / 10000000000,
        fun _ => 0, fun _ => 0⟩) (vdupq_n 1) 0
      = truncate ((vdupq_n 1 : Vec ℚ) 0 / (6931471805 / 10000000000))
    ∧ -(6931471805 / 10000000000 : ℚ)
      < vexpq_f16_val (Lane.exact ℚ ⟨fun _ => 0, fun _ => 0, 0, 6931471805 / 10000000000,
        fun _ => 0, fun _ => 0⟩) (vdupq_n 1) 0
    ∧ vexpq_f16_val (Lane.exact ℚ ⟨fun _ => 0, fun _ => 0, 0, 6931471805 / 10000000000,
        fun _ => 0, fun _ => 0⟩) (vdupq_n 1) 0 < (6931471805 / 10000000000 : ℚ) := by
  have ht : truncate ((1 : ℚ) / (6931471805 / 10000000000)) = 1 := by
    unfold truncate
    rw [if_pos (by norm_num), Int.floor_eq_iff]
    constructor <;> norm_num
  have h := vexpq_f16_range_reduction ℚ ⟨fun _ => 0, fun _ => 0, 0, 6931471805 / 10000000000,
        fun _ => 0, fun _ => 0⟩ (by norm_num) (vdupq_n 1) 0
        (by simp only [vdupq_n]; rw [ht]; norm_num) (by simp only [vdupq_n]; rw [ht]; norm_num)
  exact ⟨h.1, h.2.2.1, h.2.2.2⟩

/-- Claim C7 fails at `x = 1/2`: the quotient `0.72...` is truncated to `m = 0`,
so `val = 1/2`, above `ln2 / 2`; the binary16 arithmetic does the same on the
lane `0x3800`. -/
theorem vexpq_f16_val_one_half :
    vexpq_f16_m (Lane.exact ℝ ⟨fun _ => 0, fun _ => 0, 0, Real.log 2, fun _ => 0, fun _ => 0⟩)
        (vdupq_n (1 / 2)) 0 = 0
    ∧ vexpq_f16_val (Lane.exact ℝ ⟨fun _ => 0, fun _ => 0, 0, Real.log 2, fun _ => 0,
        fun _ => 0⟩) (vdupq_n (1 / 2)) 0 = 1 / 2
    ∧ ¬ (vexpq_f16_val (Lane.exact ℝ ⟨fun _ => 0, fun _ => 0, 0, Real.log 2, fun _ => 0,
        fun _ => 0⟩) (vdupq_n (1 / 2)) 0 ≤ Real.log 2 / 2)
    ∧ vexpq_f16_m (halfLane ieee ⟨fun _ => mkHalf 0, fun _ => mkHalf 0⟩)
        (vdupq_n (mkHalf 0x3800)) 0 = 0
    ∧ vexpq_f16_val (halfLane ieee ⟨fun _ => mkHalf 0, fun _ => mkHalf 0⟩)
        (vdupq_n (mkHalf 0x3800)) 0 = mkHalf 0x3800 := by
  have hlo := Real.log_two_gt_d9
  have hhi := Real.log_two_lt_d9
  have hpos : (0 : ℝ) < Real.log 2 := by linarith
  have ht : truncate ((1 / 2 : ℝ) * (Real.log 2)⁻¹) = 0 := by
    unfold truncate
    rw [if_pos (by positivity), Int.floor_eq_iff]
    constructor
    · simp only [Int.cast_zero]; positivity
    · rw [← div_eq_mul_inv, Int.cast_zero, zero_add, div_lt_one hpos]; linarith
  have hm : vexpq_f16_m (Lane.exact ℝ ⟨fun _ => 0, fun _ => 0, 0, Real.log 2, fun _ => 0,
      fun _ => 0⟩) (vdupq_n (1 / 2)) 0 = 0 := by
    simp only [vexpq_f16_m, vcvtq_s16_f16, vmulq_n, vdupq_n, Lane.exact, Arith.exact]
    rw [ht]; rfl
  have hv : vexpq_f16_val (Lane.exact ℝ ⟨fun _ => 0, fun _ => 0, 0, Real.log 2, fun _ => 0,
      fun _ => 0⟩) (vdupq_n (1 / 2)) 0 = 1 / 2 := by
    have : vexpq_f16_val (Lane.exact ℝ ⟨fun _ => 0, fun _ => 0, 0, Real.log 2, fun _ => 0,
      fun _ => 0⟩) (vdupq_n (1 / 2)) 0 = 1 / 2 - ((vexpq_f16_m (Lane.exact ℝ ⟨fun _ => 0,
      fun _ => 0, 0, Real.log 2, fun _ => 0, fun _ => 0⟩) (vdupq_n (1 / 2)) 0 : Int) : ℝ)
        * Real.log 2 := rfl
    rw [this, hm]; simp
  refine ⟨hm, hv, ?_, by decide, by decide⟩
  rw [hv]; linarith

theorem arm_vec_exponent_f16_loop_eq {F : Type} (A : Arith F) (x : Vec F) (k : Nat) :
    ∀ (r : Vec F) (nb : Int) (cnt : Nat), nb = k → nb ≤ 32767 →
      arm_vec_exponent_f16_loop A x r nb cnt = ((fun s => vmulq A s x)^[k] r, cnt + k) := by
  induction k with
  | zero =>
    intro r nb cnt h _
    rw [arm_vec_exponent_f16_loop, if_neg (by omega)]
    rfl
  | succ k ih =>
    intro r nb cnt h hle
    rw [arm_vec_exponent_f16_loop, if_pos (by omega)]
    have hw : wrap16 (nb - 1) = (k : Int) := by
      rw [wrap16_of_range _ (by omega) (by omega)]; omega
    rw [hw, ih (vmulq A r x) k (cnt + 1) rfl (by omega), Function.iterate_succ_apply]
    congr 1
    omega

theorem iterate_mul_exact (R : Type) [CommRing R] (x : Vec R) (k : Nat) (i : Fin 8) :
    ((fun s => vmulq (Arith.exact R) s x)^[k] x) i = x i ^ (k + 1) := by
  induction k with
  | zero => simp
  | succ k ih =>
    rw [Function.iterate_succ_apply']
    simp only [vmulq, Arith.exact] at ih ⊢
    rw [ih]
    ring

/-- Claim C8: for `1 ≤ nb ≤ 32767` the helper halts having executed `vmulq`
exactly `nb - 1` times, returns `x` multiplied on the right by `x` that many
times, and in exact arithmetic that value is `x ^ nb` on every lane. -/
theorem arm_vec_exponent_f16_pow {F : Type} (A : Arith F) (x : Vec F) (R : Type) [CommRing R]
    (y : Vec R) (nb : Int) (h1 : 1 ≤ nb) (h2 : nb ≤ 32767) :
    arm_vec_exponent_f16_run A x nb = ((fun s => vmulq A s x)^[(nb - 1).toNat] x, (nb - 1).toNat)
    ∧ arm_vec_exponent_f16 A x nb = (fun s => vmulq A s x)^[(nb - 1).toNat] x
    ∧ ∀ i : Fin 8, arm_vec_exponent_f16 (Arith.exact R) y nb i = y i ^ nb.toNat := by
  have hw : wrap16 (nb - 1) = (((nb - 1).toNat : Nat) : Int) := by
    rw [wrap16_of_range _ (by omega) (by omega)]; omega
  have hrun : ∀ {G : Type} (B : Arith G) (z : Vec G),
      arm_vec_exponent_f16_run B z nb
        = ((fun s => vmulq B s z)^[(nb - 1).toNat] z, (nb - 1).toNat) := by
    intro G B z
    simp only [arm_vec_exponent_f16_run]
    rw [hw, arm_vec_exponent_f16_loop_eq B z (nb - 1).toNat z _ 0 rfl (by omega)]
    simp
  refine ⟨hrun A x, ?_, ?_⟩
  · simp only [arm_vec_exponent_f16, hrun A x]
  · intro i
    simp only [arm_vec_exponent_f16, hrun (Arith.exact R) y]
    rw [iterate_mul_exact]
    congr 1
    omega

/-- The helper with `nb = 3`, an instance of claim C8. -/
theorem arm_vec_exponent_f16_pow_witness :
    arm_vec_exponent_f16_run ieee.toArith (vdupq_n (mkHalf 0x4000)) 3
      = ((fun s => vmulq ieee.toArith s (vdupq_n (mkHalf 0x4000)))^[((3 : Int) - 1).toNat]
          (vdupq_n (mkHalf 0x4000)), ((3 : Int) - 1).toNat)
    ∧ arm_vec_exponent_f16 (Arith.exact ℤ) (vdupq_n 2) 3 0 = (vdupq_n 2 : Vec ℤ) 0 ^ (3 : Int).toNat :=
  ⟨(arm_vec_exponent_f16_pow ieee.toArith (vdupq_n (mkHalf 0x4000)) ℤ (vdupq_n 2) 3
      (by decide) (by decide)).1,
   (arm_vec_exponent_f16_pow ieee.toArith (vdupq_n (mkHalf 0x4000)) ℤ (vdupq_n 2) 3
      (by decide) (by decide)).2.2 0⟩

theorem ieeeMul_neg_inf (n : Half) (hn0 : 0 < n.val) (hn1 : n.val < 0x7C00) :
    ieeeMul n (mkHalf 0xFC00) = mkHalf 0xFC00 := by
  have h1 : n.isNaN = false := by
    simp only [Half.isNaN, decide_eq_false_iff_not]; omega
  have h2 : n.isZero = false := by
    simp only [Half.isZero, decide_eq_false_iff_not]; omega
  have h3 : n.signBit = false := by
    simp only [Half.signBit, decide_eq_false_iff_not]; omega
  have h4 : (mkHalf 0xFC00).isNaN = false := by decide
  have h5 : (mkHalf 0xFC00).isInf = true := by decide
  have h6 : (mkHalf 0xFC00).isZero = false := by decide
  have h7 : (mkHalf 0xFC00).signBit = true := by decide
  simp [ieeeMul, h1, h2, h3, h4, h5, h6, h7, infOf]

/-- Claim C9: `vpowq_f16` is `vexpq_f16` of the product of `n` with
`vlogq_f16`, nothing else; in IEEE-754 arithmetic, on a lane with `val` a zero
of either sign and `n` positive and finite, the logarithm is minus infinity,
the product is minus infinity, the quotient converts to -32768 and the lane of
the result is `+0`. -/
theorem vpowq_f16_zero {F : Type} (A : Lane F) (v w : Vec F) (T : Tables) (val n : Vec Half)
    (i : Fin 8) (hz : (val i).val = 0x0000 ∨ (val i).val = 0x8000)
    (hn0 : 0 < (n i).val) (hn1 : (n i).val < 0x7C00) :
    vpowq_f16 A v w = vexpq_f16 A (vmulq A.toArith w (vlogq_f16 A v))
    ∧ vlogq_f16 (halfLane ieee T) val i = mkHalf 0xFC00
    ∧ vmulq (halfLane ieee T).toArith n (vlogq_f16 (halfLane ieee T) val) i = mkHalf 0xFC00
    ∧ vexpq_f16_m (halfLane ieee T)
        (vmulq (halfLane ieee T).toArith n (vlogq_f16 (halfLane ieee T) val)) i = -32768
    ∧ vpowq_f16 (halfLane ieee T) val n i = mkHalf 0x0000 := by
  have hlog : vlogq_f16 (halfLane ieee T) val i = mkHalf 0xFC00 := by
    rw [vlogq_f16_lane, (isZero_iff _).2 hz]; rfl
  have hmul : vmulq (halfLane ieee T).toArith n (vlogq_f16 (halfLane ieee T) val) i
      = mkHalf 0xFC00 := by
    show ieeeMul (n i) (vlogq_f16 (halfLane ieee T) val i) = mkHalf 0xFC00
    rw [hlog, ieeeMul_neg_inf _ hn0 hn1]
  have hm : vexpq_f16_m (halfLane ieee T)
        (vmulq (halfLane ieee T).toArith n (vlogq_f16 (halfLane ieee T) val)) i = -32768 := by
    show ieeeToS16 (ieeeMul (vmulq (halfLane ieee T).toArith n (vlogq_f16 (halfLane ieee T) val) i)
      (roundFrac 14426950408 10000000000 false)) = -32768
    rw [hmul]
    decide
  refine ⟨rfl, hlog, hmul, hm, ?_⟩
  simp only [vpowq_f16, vexpq_f16, vdupq_m, vcmpltq_n_s16, hm, halfLane_zero]
  simp

/-- The power of minus zero with the exponent 3 (`0x4200`), an instance of
claim C9. -/
theorem vpowq_f16_zero_witness :
    vpowq_f16 (halfLane ieee ⟨fun _ => mkHalf 0, fun _ => mkHalf 0⟩) (vdupq_n (mkHalf 0x8000))
      (vdupq_n (mkHalf 0x4200)) 0 = mkHalf 0x0000 :=
  (vpowq_f16_zero (halfLane ieee ⟨fun _ => mkHalf 0, fun _ => mkHalf 0⟩) (vdupq_n (mkHalf 0x8000))
    (vdupq_n (mkHalf 0x4200)) ⟨fun _ => mkHalf 0, fun _ => mkHalf 0⟩ (vdupq_n (mkHalf 0x8000))
    (vdupq_n (mkHalf 0x4200)) 0 (Or.inr (by decide)) (by decide) (by decide)).2.2.2.2

theorem ieeeMul_inf (a : Half) :
    ieeeMul a (mkHalf 0x7C00) = if a.isNaN || a.isZero then qNaN else infOf a.signBit := by
  have h4 : (mkHalf 0x7C00).isNaN = false := by decide
  have h5 : (mkHalf 0x7C00).isInf = true := by decide
  have h6 : (mkHalf 0x7C00).isZero = false := by decide
  have h7 : (mkHalf 0x7C00).signBit = false := by decide
  cases h1 : a.isNaN <;> cases h2 : a.isZero <;> simp [ieeeMul, h1, h2, h4, h5, h6, h7]

/-- Claim C10, amended: with a denominator lane that is a zero of either sign,
the quotient lane is the numerator times plus infinity, which in IEEE-754
arithmetic is plus infinity for a numerator above zero, minus infinity for a
numerator below zero, and NaN for a zero or NaN numerator. -/
theorem vdiv_f16_by_zero (T : Tables) (num den : Vec Half) (i : Fin 8)
    (hz : (den i).val = 0x0000 ∨ (den i).val = 0x8000) :
    vdiv_f16 (halfLane ieee T) num den i = ieeeMul (num i) (mkHalf 0x7C00)
    ∧ vdiv_f16 (halfLane ieee T) num den i
        = (if (num i).isNaN || (num i).isZero then qNaN else infOf (num i).signBit)
    ∧ (0 < (num i).val ∧ (num i).val ≤ 0x7C00 →
        vdiv_f16 (halfLane ieee T) num den i = mkHalf 0x7C00) := by
  have h : vdiv_f16 (halfLane ieee T) num den i = ieeeMul (num i) (mkHalf 0x7C00) := by
    show ieeeMul (num i) (vrecip_hiprec_f16 (halfLane ieee T) den i) = _
    rw [vrecip_hiprec_f16_zero_lane ieee T den i hz]
  refine ⟨h, by rw [h, ieeeMul_inf], ?_⟩
  rintro ⟨h0, h1⟩
  have e1 : (num i).isNaN = false := by
    simp only [Half.isNaN, decide_eq_false_iff_not]; omega
  have e2 : (num i).isZero = false := by
    simp only [Half.isZero, decide_eq_false_iff_not]; omega
  have e3 : (num i).signBit = false := by
    simp only [Half.signBit, decide_eq_false_iff_not]; omega
  rw [h, ieeeMul_inf, e1, e2, e3]
  rfl

/-- The quotient of 2 (`0x4000`) by minus zero, an instance of claim C10 as
amended. -/
theorem vdiv_f16_by_zero_witness :
    vdiv_f16 (halfLane ieee ⟨fun _ => mkHalf 0, fun _ => mkHalf 0⟩) (vdupq_n (mkHalf 0x4000))
      (vdupq_n (mkHalf 0x8000)) 0 = mkHalf 0x7C00 :=
  (vdiv_f16_by_zero ⟨fun _ => mkHalf 0, fun _ => mkHalf 0⟩ (vdupq_n (mkHalf 0x4000))
    (vdupq_n (mkHalf 0x8000)) 0 (Or.inr (by decide))).2.2 ⟨by decide, by decide⟩

/-- Claim C10 fails for the numerator `-1.0` (`0xBC00`) over the denominator
`+0`: the quotient is minus infinity (`0xFC00`); for the numerator `+0` it is
a NaN. -/
theorem vdiv_f16_neg_one_by_zero :
    vdiv_f16 (halfLane ieee ⟨fun _ => mkHalf 0, fun _ => mkHalf 0⟩) (vdupq_n (mkHalf 0xBC00))
      (vdupq_n (mkHalf 0x0000)) 0 = mkHalf 0xFC00
    ∧ vdiv_f16 (halfLane ieee ⟨fun _ => mkHalf 0, fun _ => mkHalf 0⟩) (vdupq_n (mkHalf 0xBC00))
      (vdupq_n (mkHalf 0x0000)) 0 ≠ mkHalf 0x7C00
    ∧ vdiv_f16 (halfLane ieee ⟨fun _ => mkHalf 0, fun _ => mkHalf 0⟩) (vdupq_n (mkHalf 0x0000))
      (vdupq_n (mkHalf 0x0000)) 0 = mkHalf 0x7E00 := by
  refine ⟨by decide, by decide, by decide⟩

theorem vrecip_medprec_f16_stages {F : Type} (A : Lane F) (x : Vec F) :
    vrecip_medprec_f16 A x
      = vrecip_f16_finish A x (vrecip_f16_newton A (vabsq A x) (vrecip_f16_newton A (vabsq A x)
          (vrecip_f16_newton A (vabsq A x) (vrecip_f16_guess A x)))) := rfl

theorem vrecip_hiprec_f16_stages {F : Type} (A : Lane F) (x : Vec F) :
    vrecip_hiprec_f16 A x
      = vrecip_f16_finish A x (vrecip_f16_newton A (vabsq A x) (vrecip_f16_newton A (vabsq A x)
          (vrecip_f16_newton A (vabsq A x) (vrecip_f16_newton A (vabsq A x)
            (vrecip_f16_guess A x))))) := rfl

theorem vrecip_f16_finish_exact_pos (K : Type) [LinearOrderedField K] [FloorRing K]
    (P : ExactParams K) (x y : Vec K) (i : Fin 8) (hx : 0 < x i) :
    vrecip_f16_finish (Lane.exact K P) x y i = y i := by
  have h1 : ¬ (x i = 0) := ne_of_gt hx
  have h2 : ¬ (x i < 0) := not_lt.mpr hx.le
  simp [vrecip_f16_finish, vnegq_m, vdupq_m, vcmpeqq_n, vcmpltq_n, Lane.exact, h1, h2]

theorem vrecip_f16_newton_exact_pos (K : Type) [LinearOrderedField K] [FloorRing K]
    (P : ExactParams K) (x y : Vec K) (i : Fin 8) (hx : 0 < x i) :
    vrecip_f16_newton (Lane.exact K P) (vabsq (Lane.exact K P) x) y i
      = y i * (2 - y i * x i) := by
  simp [vrecip_f16_newton, vsubq, vmulq, vdupq_n, vabsq, Lane.exact, Arith.exact,
    abs_of_pos hx]

/-- Claim C12: in exact arithmetic, on a positive lane `x`, the four-pass
reciprocal `h` is one Newton pass `y * (2 - y * x)` on the three-pass
reciprocal `y`, the residual squares, `1 - h x = (1 - y x)^2`, and the
residual does not grow when `|1 - y x| ≤ 1`. -/
theorem vrecip_f16_hiprec_residual (K : Type) [LinearOrderedField K] [FloorRing K]
    (P : ExactParams K) (x : Vec K) (i : Fin 8) (hx : 0 < x i) :
    vrecip_hiprec_f16 (Lane.exact K P) x i
        = vrecip_medprec_f16 (Lane.exact K P) x i
          * (2 - vrecip_medprec_f16 (Lane.exact K P) x i * x i)
    ∧ 1 - vrecip_hiprec_f16 (Lane.exact K P) x i * x i
        = (1 - vrecip_medprec_f16 (Lane.exact K P) x i * x i) ^ 2
    ∧ (|1 - vrecip_medprec_f16 (Lane.exact K P) x i * x i| ≤ 1 →
        |1 - vrecip_hiprec_f16 (Lane.exact K P) x i * x i|
          ≤ |1 - vrecip_medprec_f16 (Lane.exact K P) x i * x i|) := by
  have hh : vrecip_hiprec_f16 (Lane.exact K P) x i
        = vrecip_medprec_f16 (Lane.exact K P) x i
          * (2 - vrecip_medprec_f16 (Lane.exact K P) x i * x i) := by
    rw [vrecip_hiprec_f16_stages, vrecip_medprec_f16_stages,
      vrecip_f16_finish_exact_pos K P x _ i hx, vrecip_f16_finish_exact_pos K P x _ i hx,
      vrecip_f16_newton_exact_pos K P x _ i hx]
  have hsq : 1 - vrecip_hiprec_f16 (Lane.exact K P) x i * x i
        = (1 - vrecip_medprec_f16 (Lane.exact K P) x i * x i) ^ 2 := by
    rw [hh]; ring
  refine ⟨hh, hsq, ?_⟩
  intro hle
  rw [hsq, abs_pow, sq]
  calc |1 - vrecip_medprec_f16 (Lane.exact K P) x i * x i|
        * |1 - vrecip_medprec_f16 (Lane.exact K P) x i * x i|
      ≤ 1 * |1 - vrecip_medprec_f16 (Lane.exact K P) x i * x i| :=
        mul_le_mul_of_nonneg_right hle (abs_nonneg _)
    _ = |1 - vrecip_medprec_f16 (Lane.exact K P) x i * x i| := one_mul _

/-- Claim C18: for `-32767 ≤ nb ≤ 1` the helper executes `vmulq` zero times and
returns `x` itself, so `nb = 0` yields `x`. -/
theorem arm_vec_exponent_f16_nonpos {F : Type} (A : Arith F) (x : Vec F) (nb : Int)
    (h1 : -32767 ≤ nb) (h2 : nb ≤ 1) :
    arm_vec_exponent_f16_run A x nb = (x, 0) ∧ arm_vec_exponent_f16 A x nb = x := by
  have hw : wrap16 (nb - 1) = nb - 1 := wrap16_of_range _ (by omega) (by omega)
  have hrun : arm_vec_exponent_f16_run A x nb = (x, 0) := by
    simp only [arm_vec_exponent_f16_run]
    rw [hw, arm_vec_exponent_f16_loop, if_neg (by omega)]
  exact ⟨hrun, by simp only [arm_vec_exponent_f16, hrun]⟩

/-- The helper with `nb = 0`, an instance of claim C18. -/
theorem arm_vec_exponent_f16_nonpos_witness :
    arm_vec_exponent_f16 ieee.toArith (vdupq_n (mkHalf 0x4000)) 0 = vdupq_n (mkHalf 0x4000) :=
  (arm_vec_exponent_f16_nonpos ieee.toArith (vdupq_n (mkHalf 0x4000)) 0 (by decide)
    (by decide)).2

theorem toS16_nonneg_of_lt (p : Half) (hp : p.val < 32768) : 0 ≤ p.toS16 := by
  simp only [Half.toS16, if_pos hp]
  omega

/-- Claim C17: on a lane of `vexpq_f16` with quotient `m ≥ 32` and the sign bit
of `poly` clear, the shift saturates to `0x7FFF`, the saturating sum is the
pattern `0x7FFF`, a NaN and not the infinity `0x7C00`, and the guard does not
touch the lane. -/
theorem vexpq_f16_overflow (R : HalfOps) (T : Tables) (x : Vec Half) (i : Fin 8)
    (hm : 32 ≤ vexpq_f16_m (halfLane R T) x i)
    (hp : (vexpq_f16_poly (halfLane R T) x i).val < 32768) :
    vqshlq_n_s16 (vexpq_f16_m (halfLane R T) x) 10 i = 0x7FFF
    ∧ vqaddq_s16 (reinterpret_s16 (halfLane R T) (vexpq_f16_poly (halfLane R T) x))
        (vqshlq_n_s16 (vexpq_f16_m (halfLane R T) x) 10) i = 0x7FFF
    ∧ vcmpltq_n_s16 (vexpq_f16_m (halfLane R T) x) (-14) i = false
    ∧ vexpq_f16 (halfLane R T) x i = mkHalf 0x7FFF
    ∧ (mkHalf 0x7FFF).isNaN = true ∧ mkHalf 0x7FFF ≠ mkHalf 0x7C00 := by
  have hs : vqshlq_n_s16 (vexpq_f16_m (halfLane R T) x) 10 i = 0x7FFF := by
    simp only [vqshlq_n_s16, sat16]
    rw [if_pos (by omega)]
  have hnn := toS16_nonneg_of_lt _ hp
  have ha : vqaddq_s16 (reinterpret_s16 (halfLane R T) (vexpq_f16_poly (halfLane R T) x))
        (vqshlq_n_s16 (vexpq_f16_m (halfLane R T) x) 10) i = 0x7FFF := by
    simp only [vqaddq_s16, hs, reinterpret_s16, halfLane_bits, sat16]
    split_ifs <;> omega
  have hg : vcmpltq_n_s16 (vexpq_f16_m (halfLane R T) x) (-14) i = false := by
    simp only [vcmpltq_n_s16, decide_eq_false_iff_not]
    omega
  refine ⟨hs, ha, hg, ?_, by decide, by decide⟩
  have hrec : vexpq_f16_recon (halfLane R T) x i = Half.ofS16 0x7FFF := by
    simp only [vexpq_f16_recon, reinterpret_f16, halfLane_ofBits]
    rw [ha]
  have e : Half.ofS16 0x7FFF = mkHalf 0x7FFF := by decide
  simp only [vexpq_f16, vdupq_m, hg, hrec, e]
  simp

/-- The exponential of 23 (`0x4DC0`), whose quotient is 33, with tables of
zeros, an instance of claim C17. -/
theorem vexpq_f16_overflow_witness :
    vexpq_f16 (halfLane ieee ⟨fun _ => mkHalf 0, fun _ => mkHalf 0⟩) (vdupq_n (mkHalf 0x4DC0)) 0
      = mkHalf 0x7FFF :=
  (vexpq_f16_overflow ieee ⟨fun _ => mkHalf 0, fun _ => mkHalf 0⟩ (vdupq_n (mkHalf 0x4DC0)) 0
    (by decide) (by decide)).2.2.2.1

theorem and_3FF_or_3C00 (v : Nat) : (v &&& 0x03FF) ||| 0x3C00 = v % 1024 + 15360 := by
  have h1 : v &&& 0x03FF = v % 1024 := Nat.and_pow_two_sub_one_eq_mod v 10
  have h2 : 2 ^ 10 * 15 + v % 1024 = 2 ^ 10 * 15 ||| v % 1024 :=
    Nat.mul_add_lt_is_or (Nat.mod_lt _ (by norm_num)) 15
  have h3 : (2 : Nat) ^ 10 * 15 = 15360 := by norm_num
  rw [h3] at h2
  rw [h1, Nat.lor_comm, ← h2]
  omega

/-- The splitter on any lane: the pattern of the mantissa and the exponent. -/
theorem vmant_exp_f16_any (R : HalfOps) (T : Tables) (x : Vec Half) (i : Fin 8) :
    ((vmant_exp_f16 (halfLane R T) x).1 i).val = (x i).val % 1024 + 15360
    ∧ (vmant_exp_f16 (halfLane R T) x).2 i = (x i).toS16 / 1024 - 15 := by
  have hlt := (x i).isLt
  simp only [vmant_exp_f16, reinterpret_s16, reinterpret_f16, vshrq_n_s16, vsubq_s16,
    vshlq_n_s16, vdupq_n, halfLane, Half.toS16, Half.ofS16, mkHalf_val,
    Int.shiftRight_eq_div_pow, wrap16]
  split_ifs <;> constructor <;> omega

/-- Claim C16: on every 16-bit pattern `b` the splitter returns
`n = (b >> 10) - 15`, with `b` read as a signed integer, and the mantissa
pattern `(b & 0x03FF) | 0x3C00`, which has the sign bit clear and reads as a
rational in `[1, 2)`; when the sign bit of `b` is set, `-47 ≤ n ≤ -16`. -/
theorem vmant_exp_f16_pattern (R : HalfOps) (T : Tables) (x : Vec Half) (i : Fin 8) :
    (vmant_exp_f16 (halfLane R T) x).2 i = ((x i).toS16 >>> (10 : Nat)) - 15
    ∧ ((vmant_exp_f16 (halfLane R T) x).1 i).val = ((x i).val &&& 0x03FF) ||| 0x3C00
    ∧ ((vmant_exp_f16 (halfLane R T) x).1 i).signBit = false
    ∧ 1 ≤ ((vmant_exp_f16 (halfLane R T) x).1 i).toRat
    ∧ ((vmant_exp_f16 (halfLane R T) x).1 i).toRat < 2
    ∧ ((x i).signBit = true →
        -47 ≤ (vmant_exp_f16 (halfLane R T) x).2 i ∧ (vmant_exp_f16 (halfLane R T) x).2 i ≤ -16) := by
  have hlt := (x i).isLt
  obtain ⟨hr, hn⟩ := vmant_exp_f16_any R T x i
  have ht : (x i).val % 1024 < 1024 := Nat.mod_lt _ (by norm_num)
  have hrv := toRat_of_pos_normal ((vmant_exp_f16 (halfLane R T) x).1 i) 15 ((x i).val % 1024)
    (by omega) ht (by norm_num) (by norm_num)
  have h0 : (0 : ℚ) ≤ (((x i).val % 1024 : Nat) : ℚ) := Nat.cast_nonneg _
  have h1 : (((x i).val % 1024 : Nat) : ℚ) < 1024 := by exact_mod_cast ht
  norm_num at hrv
  refine ⟨?_, ?_, ?_, ?_, ?_, ?_⟩
  · rw [hn, Int.shiftRight_eq_div_pow (x i).toS16 10]; norm_num
  · rw [hr, and_3FF_or_3C00]
  · simp only [Half.signBit, decide_eq_false_iff_not]; omega
  · rw [hrv, le_div_iff₀ (by norm_num)]; linarith
  · rw [hrv, div_lt_iff₀ (by norm_num)]; linarith
  · intro hs
    simp only [Half.signBit, decide_eq_true_eq] at hs
    rw [hn]
    simp only [Half.toS16]
    split_ifs <;> omega

/-- The splitter on the lane `0xBC00` (the value -1), where it returns
`n = -32`, an instance of claim C16. -/
theorem vmant_exp_f16_pattern_witness :
    -47 ≤ (vmant_exp_f16 (halfLane ieee ⟨fun _ => mkHalf 0, fun _ => mkHalf 0⟩)
        (vdupq_n (mkHalf 0xBC00))).2 0
    ∧ (vmant_exp_f16 (halfLane ieee ⟨fun _ => mkHalf 0, fun _ => mkHalf 0⟩)
        (vdupq_n (mkHalf 0xBC00))).2 0 ≤ -16 :=
  (vmant_exp_f16_pattern ieee ⟨fun _ => mkHalf 0, fun _ => mkHalf 0⟩ (vdupq_n (mkHalf 0xBC00))
    0).2.2.2.2.2 (by decide)

theorem ofS16_val_of_nonneg (z : Int) (h0 : 0 ≤ z) (h1 : z < 65536) :
    ((Half.ofS16 z).val : Int) = z := by
  simp only [Half.ofS16, mkHalf_val]
  omega

/-- Exponent injection on one lane: when the exponent field `e` of a positive
pattern and the integer `m` satisfy `1 ≤ e`, `1 ≤ e + m ≤ 30`, the two
saturating operations do not saturate, the pattern moves by `1024 * m` and the
value is multiplied by `2^m`. -/
theorem inject_lane (p : Half) (m : Int) (e t : Nat) (hp : p.val = 1024 * e + t)
    (ht : t < 1024) (he : 1 ≤ e) (he2 : e ≤ 30) (hlo : 1 ≤ (e : Int) + m)
    (hhi : (e : Int) + m ≤ 30) :
    sat16 (m * 2 ^ 10) = m * 1024
    ∧ sat16 (p.toS16 + sat16 (m * 2 ^ 10)) = 1024 * ((e : Int) + m) + t
    ∧ (Half.ofS16 (sat16 (p.toS16 + sat16 (m * 2 ^ 10)))).val = 1024 * ((e : Int) + m).toNat + t
    ∧ (Half.ofS16 (sat16 (p.toS16 + sat16 (m * 2 ^ 10)))).toRat = p.toRat * 2 ^ m := by
  have hs : sat16 (m * 2 ^ 10) = m * 1024 := by
    rw [sat16_of_range _ (by omega) (by omega)]; norm_num
  have hb : p.toS16 = 1024 * (e : Int) + t := by
    simp only [Half.toS16]
    rw [if_pos (by omega)]; omega
  have ha : sat16 (p.toS16 + sat16 (m * 2 ^ 10)) = 1024 * ((e : Int) + m) + t := by
    rw [hs, hb, sat16_of_range _ (by omega) (by omega)]; ring
  have hv : (Half.ofS16 (sat16 (p.toS16 + sat16 (m * 2 ^ 10)))).val
      = 1024 * ((e : Int) + m).toNat + t := by
    rw [ha]
    have := ofS16_val_of_nonneg (1024 * ((e : Int) + m) + t) (by omega) (by omega)
    omega
  refine ⟨hs, ha, hv, ?_⟩
  rw [toRat_of_pos_normal _ ((e : Int) + m).toNat t hv ht (by omega) (by omega),
    toRat_of_pos_normal p e t hp ht he (by omega)]
  have hcast : ((((e : Int) + m).toNat : Nat) : Int) = (e : Int) + m := by omega
  rw [hcast, mul_assoc, ← zpow_add₀ (by norm_num : (2 : ℚ) ≠ 0)]
  congr 2
  ring

theorem vexpq_f16_lane (R : HalfOps) (T : Tables) (x : Vec Half) (i : Fin 8) :
    vexpq_f16 (halfLane R T) x i
      = if vexpq_f16_m (halfLane R T) x i < -14 then mkHalf 0x0000
        else Half.ofS16 (sat16 ((vexpq_f16_poly (halfLane R T) x i).toS16
                + sat16 (vexpq_f16_m (halfLane R T) x i * 2 ^ 10))) := by
  simp only [vexpq_f16, vexpq_f16_recon, vdupq_m, vcmpltq_n_s16, reinterpret_f16,
    reinterpret_s16, vqaddq_s16, vqshlq_n_s16, halfLane_zero, halfLane_bits, halfLane_ofBits,
    decide_eq_true_eq]

/-- Claim C15, amended: on a lane with `-14 ≤ m ≤ 15` and `poly` positive with
exponent field 14 or 15, except for `m = -14` together with the exponent field
14, the exponent field of the returned lane is `e + m`, within `1..30`, and the
returned lane equals `poly * 2^m`. -/
theorem vexpq_f16_unguarded (R : HalfOps) (T : Tables) (x : Vec Half) (i : Fin 8)
    (hm1 : -14 ≤ vexpq_f16_m (halfLane R T) x i) (hm2 : vexpq_f16_m (halfLane R T) x i ≤ 15)
    (hp : (vexpq_f16_poly (halfLane R T) x i).signBit = false)
    (he : (vexpq_f16_poly (halfLane R T) x i).expField = 14
      ∨ (vexpq_f16_poly (halfLane R T) x i).expField = 15)
    (hne : ¬ ((vexpq_f16_poly (halfLane R T) x i).expField = 14
      ∧ vexpq_f16_m (halfLane R T) x i = -14)) :
    ((vexpq_f16 (halfLane R T) x i).expField : Int)
        = ((vexpq_f16_poly (halfLane R T) x i).expField : Int) + vexpq_f16_m (halfLane R T) x i
    ∧ 1 ≤ (vexpq_f16 (halfLane R T) x i).expField
    ∧ (vexpq_f16 (halfLane R T) x i).expField ≤ 30
    ∧ (vexpq_f16 (halfLane R T) x i).toRat
        = (vexpq_f16_poly (halfLane R T) x i).toRat * 2 ^ (vexpq_f16_m (halfLane R T) x i) := by
  have hlt : (vexpq_f16_poly (halfLane R T) x i).val < 32768 := by
    simpa [Half.signBit] using hp
  have hE : (vexpq_f16_poly (halfLane R T) x i).expField
      = (vexpq_f16_poly (halfLane R T) x i).val / 1024 := by
    simp only [Half.expField]; omega
  rw [hE] at he hne ⊢
  obtain ⟨_, _, hv, hr⟩ := inject_lane (vexpq_f16_poly (halfLane R T) x i)
    (vexpq_f16_m (halfLane R T) x i) ((vexpq_f16_poly (halfLane R T) x i).val / 1024)
    ((vexpq_f16_poly (halfLane R T) x i).val % 1024) (by omega) (Nat.mod_lt _ (by norm_num))
    (by omega) (by omega) (by omega) (by omega)
  rw [vexpq_f16_lane, if_neg (by omega)]
  refine ⟨?_, ?_, ?_, hr⟩
  · simp only [Half.expField, hv]; omega
  · simp only [Half.expField, hv]; omega
  · simp only [Half.expField, hv]; omega

/-- The exponential of 1 (`0x3C00`) with the table of `1 + x + x^2 / 2`, where
`m = 1`, an instance of claim C15 as amended. -/
theorem vexpq_f16_unguarded_witness :
    (vexpq_f16 (halfLane ieee ⟨fun _ => mkHalf 0, fun k => if k = 0 ∨ k = 4 then mkHalf 0x3C00
        else if k = 2 then mkHalf 0x3800 else mkHalf 0⟩) (vdupq_n (mkHalf 0x3C00)) 0).toRat
      = (vexpq_f16_poly (halfLane ieee ⟨fun _ => mkHalf 0, fun k => if k = 0 ∨ k = 4 then
          mkHalf 0x3C00 else if k = 2 then mkHalf 0x3800 else mkHalf 0⟩)
          (vdupq_n (mkHalf 0x3C00)) 0).toRat
        * 2 ^ (vexpq_f16_m (halfLane ieee ⟨fun _ => mkHalf 0, fun k => if k = 0 ∨ k = 4 then
          mkHalf 0x3C00 else if k = 2 then mkHalf 0x3800 else mkHalf 0⟩)
          (vdupq_n (mkHalf 0x3C00)) 0) :=
  (vexpq_f16_unguarded ieee ⟨fun _ => mkHalf 0, fun k => if k = 0 ∨ k = 4 then mkHalf 0x3C00
        else if k = 2 then mkHalf 0x3800 else mkHalf 0⟩ (vdupq_n (mkHalf 0x3C00)) 0
    (by decide) (by decide) (by decide) (by decide) (by decide)).2.2.2

/-- Claim C15 fails at `m = -14` with `poly` below 1: for the input -10
(`0xC900`) and the table of `1 + x + x^2 / 2` the quotient is `m = -14`, which
the guard lets through, `poly` has the exponent field 14, and the returned
lane has the exponent field 0: it is the subnormal `0x0200` and not
`poly * 2^(-14)`. -/
theorem vexpq_f16_minus_ten :
    vexpq_f16_m (halfLane ieee ⟨fun _ => mkHalf 0, fun k => if k = 0 ∨ k = 4 then mkHalf 0x3C00
        else if k = 2 then mkHalf 0x3800 else mkHalf 0⟩) (vdupq_n (mkHalf 0xC900)) 0 = -14
    ∧ vexpq_f16_poly (halfLane ieee ⟨fun _ => mkHalf 0, fun k => if k = 0 ∨ k = 4 then
        mkHalf 0x3C00 else if k = 2 then mkHalf 0x3800 else mkHalf 0⟩)
        (vdupq_n (mkHalf 0xC900)) 0 = mkHalf 0x3A00
    ∧ (mkHalf 0x3A00).signBit = false ∧ (mkHalf 0x3A00).expField = 14
    ∧ vexpq_f16 (halfLane ieee ⟨fun _ => mkHalf 0, fun k => if k = 0 ∨ k = 4 then mkHalf 0x3C00
        else if k = 2 then mkHalf 0x3800 else mkHalf 0⟩) (vdupq_n (mkHalf 0xC900)) 0
        = mkHalf 0x0200
    ∧ (mkHalf 0x0200).expField = 0
    ∧ (mkHalf 0x0200).toRat ≠ (mkHalf 0x3A00).toRat * 2 ^ (-14 : Int) := by
  refine ⟨by decide, by decide, by decide, by decide, by decide, by decide, ?_⟩
  norm_num [Half.toRat, Half.units, magUnits, mkHalf]

theorem ieeeFma_comm (a b c : Half) : ieeeFma a b c = ieeeFma a c b := by
  have hs : (b.signBit != c.signBit) = (c.signBit != b.signBit) := by
    cases b.signBit <;> cases c.signBit <;> rfl
  simp only [ieeeFma]
  rw [Bool.or_assoc, Bool.or_comm b.isNaN c.isNaN, ← Bool.or_assoc, Bool.or_comm b.isInf c.isInf,
    Bool.or_comm b.isZero c.isZero, hs, mul_comm b.units c.units]

/-- Claim C11: when the fused multiply-add does not depend on the order of the
two factors of its product, as in IEEE-754 and in exact arithmetic, the
polynomial path of `vlogq_f16` is `vtaylor_polyq_f16` on the mantissa `r` with
the table `__logf_lut_f16` followed by one fused multiply-add with `float(n)`
and `__logf_rng_f16`; on a lane that is not equal to zero this is the lane of
`vlogq_f16`. -/
theorem vlogq_f16_evaluator {F : Type} (A : Lane F)
    (hcomm : ∀ a b c : F, A.fma a b c = A.fma a c b) (vecIn : Vec F) (i : Fin 8)
    (hnz : A.cmpeq (vecIn i) A.zero = false) :
    vlogq_f16_poly A vecIn
        = vfmaq_n A.toArith
            (vtaylor_polyq_f16 A.toArith (vmant_exp_f16 A vecIn).1 A.logf_lut_f16)
            (vcvtq_f16_s16 A (vmant_exp_f16 A vecIn).2) A.logf_rng_f16
    ∧ vlogq_f16 A vecIn i
        = A.fma (vtaylor_polyq_f16 A.toArith (vmant_exp_f16 A vecIn).1 A.logf_lut_f16 i)
            (A.cvt_f16_s16 ((vmant_exp_f16 A vecIn).2 i)) A.logf_rng_f16 := by
  have hp : vlogq_f16_poly A vecIn
        = vfmaq_n A.toArith
            (vtaylor_polyq_f16 A.toArith (vmant_exp_f16 A vecIn).1 A.logf_lut_f16)
            (vcvtq_f16_s16 A (vmant_exp_f16 A vecIn).2) A.logf_rng_f16 := by
    funext j
    simp only [vlogq_f16_poly, vtaylor_polyq_f16, vfmaq_n, vfmaq, vfmasq_n, vmulq, vdupq_n,
      vcvtq_f16_s16]
    rw [hcomm _ (A.logf_lut_f16 4), hcomm _ (A.logf_lut_f16 6), hcomm _ (A.logf_lut_f16 5),
      hcomm _ (A.logf_lut_f16 7)]
  refine ⟨hp, ?_⟩
  simp only [vlogq_f16, vdupq_m, vcmpeqq_n, hnz, hp]
  simp [vfmaq_n, vcvtq_f16_s16]

/-- The logarithm of 2 (`0x4000`) in IEEE-754 arithmetic with tables of ones,
an instance of claim C11. -/
theorem vlogq_f16_evaluator_witness :
    vlogq_f16 (halfLane ieee ⟨fun _ => mkHalf 0x3C00, fun _ => mkHalf 0x3C00⟩)
        (vdupq_n (mkHalf 0x4000)) 0
      = ieeeFma (vtaylor_polyq_f16 ieee.toArith
            (vmant_exp_f16 (halfLane ieee ⟨fun _ => mkHalf 0x3C00, fun _ => mkHalf 0x3C00⟩)
              (vdupq_n (mkHalf 0x4000))).1 (fun _ => mkHalf 0x3C00) 0)
          (ieee.cvt_f16_s16 ((vmant_exp_f16 (halfLane ieee ⟨fun _ => mkHalf 0x3C00,
              fun _ => mkHalf 0x3C00⟩) (vdupq_n (mkHalf 0x4000))).2 0))
          (roundFrac 693147180 1000000000 false) :=
  (vlogq_f16_evaluator (halfLane ieee ⟨fun _ => mkHalf 0x3C00, fun _ => mkHalf 0x3C00⟩)
    ieeeFma_comm (vdupq_n (mkHalf 0x4000)) 0 (by decide)).2

theorem magUnits_eq (e t : Nat) (ht : t < 1024) :
    magUnits (1024 * e + t) = if e = 0 then t else (1024 + t) * 2 ^ (e - 1) := by
  have h1 : (1024 * e + t) / 1024 = e := by omega
  have h2 : (1024 * e + t) % 1024 = t := by omega
  unfold magUnits
  rw [h1, h2]
  split_ifs with h
  · omega
  · rfl

theorem magUnits_lt_succ (n : Nat) : magUnits n < magUnits (n + 1) := by
  have hn : n = 1024 * (n / 1024) + n % 1024 := by omega
  have hlt : n % 1024 < 1024 := Nat.mod_lt _ (by norm_num)
  generalize n / 1024 = e at hn
  generalize n % 1024 = t at hn hlt
  subst hn
  by_cases ht : t = 1023
  · subst ht
    have h1 : 1024 * e + 1023 + 1 = 1024 * (e + 1) + 0 := by omega
    have e1 := magUnits_eq e 1023 hlt
    have e2 := magUnits_eq (e + 1) 0 (by norm_num)
    rw [if_neg (Nat.succ_ne_zero e), Nat.add_sub_cancel] at e2
    rw [h1, e1, e2]
    rcases e with _ | k
    · norm_num
    · rw [if_neg (Nat.succ_ne_zero k), Nat.add_sub_cancel, pow_succ]
      have := pow_pos (by norm_num : 0 < 2) k
      nlinarith
  · have h1 : 1024 * e + t + 1 = 1024 * e + (t + 1) := by omega
    rw [h1, magUnits_eq e t hlt, magUnits_eq e (t + 1) (by omega)]
    split_ifs with he
    · omega
    · exact Nat.mul_lt_mul_of_pos_right (by omega) (pow_pos (by norm_num) _)

theorem magUnits_strictMono : StrictMono magUnits := strictMono_nat_of_lt_succ magUnits_lt_succ

/-- The bit search returns the largest pattern whose magnitude is at most
`num / den`: the result satisfies the test and its successor does not. -/
theorem floorMag_spec (num den : Nat) (k : Nat) :
    ∀ acc : Nat,
      (acc ≤ 0x7C00 ∧ magUnits acc * den ≤ num * 16777216) →
      ¬ (acc + 2 ^ k ≤ 0x7C00 ∧ magUnits (acc + 2 ^ k) * den ≤ num * 16777216) →
      (floorMag num den k acc ≤ 0x7C00
        ∧ magUnits (floorMag num den k acc) * den ≤ num * 16777216)
      ∧ ¬ (floorMag num den k acc + 1 ≤ 0x7C00
        ∧ magUnits (floorMag num den k acc + 1) * den ≤ num * 16777216) := by
  induction k with
  | zero =>
    intro acc h1 h2
    simpa [floorMag] using And.intro h1 h2
  | succ k ih =>
    intro acc h1 h2
    simp only [floorMag]
    split_ifs with h
    · apply ih _ h
      have : acc + 2 ^ k + 2 ^ k = acc + 2 ^ (k + 1) := by rw [pow_succ]; omega
      rw [this]; exact h2
    · exact ih _ h1 h

theorem floorMag_unique (num den : Nat) (m : Nat)
    (h1 : m ≤ 0x7C00 ∧ magUnits m * den ≤ num * 16777216)
    (h2 : ¬ (m + 1 ≤ 0x7C00 ∧ magUnits (m + 1) * den ≤ num * 16777216)) :
    floorMag num den 15 0 = m := by
  have hs := floorMag_spec num den 15 0 (by simp [magUnits]) (by norm_num)
  obtain ⟨⟨ha, hb⟩, hc⟩ := hs
  by_contra hne
  rcases Nat.lt_or_gt_of_ne hne with hlt | hgt
  · apply hc
    refine ⟨by omega, ?_⟩
    have : magUnits (floorMag num den 15 0 + 1) ≤ magUnits m :=
      magUnits_strictMono.monotone (by omega)
    exact le_trans (Nat.mul_le_mul_right den this) h1.2
  · apply h2
    refine ⟨by omega, ?_⟩
    have : magUnits (m + 1) ≤ magUnits (floorMag num den 15 0) :=
      magUnits_strictMono.monotone (by omega)
    exact le_trans (Nat.mul_le_mul_right den this) hb

/-- Rounding the magnitude of a pattern gives the pattern back. -/
theorem roundMag_magUnits (m : Nat) (hm : m ≤ 0x7C00) : roundMag (magUnits m) 16777216 = m := by
  have hlt := magUnits_lt_succ m
  have hf : floorMag (magUnits m) 16777216 15 0 = m := by
    apply floorMag_unique _ _ m ⟨hm, le_refl _⟩
    rintro ⟨_, h⟩
    have := Nat.le_of_mul_le_mul_right h (by norm_num)
    omega
  simp only [roundMag, hf]
  split_ifs with h1 h2 <;> omega

/-- Rounding the value of a positive finite lane gives the lane back. -/
theorem roundFrac_units (b : Half) (h0 : 0 < b.val) (h1 : b.val ≤ 0x7C00) (nz : Bool) :
    roundFrac b.units 16777216 nz = b := by
  have hu : b.units = (magUnits b.val : Int) := by
    simp only [Half.units]; rw [if_pos (by omega)]
  have hpos : 0 < magUnits b.val := by
    have := magUnits_strictMono h0
    simpa [magUnits] using this
  apply Fin.ext
  simp only [roundFrac, hu]
  rw [if_neg (by omega), if_neg (by omega)]
  simp only [Int.natAbs_ofNat, roundMag_magUnits _ h1, mkHalf_val]
  have := b.isLt
  omega

theorem cross_le_iff (u C num den num' den' : Nat) (hd : 0 < den) (hd' : 0 < den')
    (h : num * den' = num' * den) : u * den ≤ num * C ↔ u * den' ≤ num' * C := by
  constructor
  · intro hle
    apply Nat.le_of_mul_le_mul_right _ hd
    calc u * den' * den = u * den * den' := by ring
      _ ≤ num * C * den' := Nat.mul_le_mul_right _ hle
      _ = num * den' * C := by ring
      _ = num' * C * den := by rw [h]; ring
  · intro hle
    apply Nat.le_of_mul_le_mul_right _ hd'
    calc u * den * den' = u * den' * den := by ring
      _ ≤ num' * C * den := Nat.mul_le_mul_right _ hle
      _ = num' * den * C := by ring
      _ = num * C * den' := by rw [← h]; ring

theorem cross_ge_iff (u C num den num' den' : Nat) (hd : 0 < den) (hd' : 0 < den')
    (h : num * den' = num' * den) : num * C ≤ u * den ↔ num' * C ≤ u * den' := by
  constructor
  · intro hle
    apply Nat.le_of_mul_le_mul_right _ hd
    calc num' * C * den = num' * den * C := by ring
      _ = num * C * den' := by rw [← h]; ring
      _ ≤ u * den * den' := Nat.mul_le_mul_right _ hle
      _ = u * den' * den := by ring
  · intro hle
    apply Nat.le_of_mul_le_mul_right _ hd'
    calc num * C * den' = num * den' * C := by ring
      _ = num' * C * den := by rw [h]; ring
      _ ≤ u * den' * den := Nat.mul_le_mul_right _ hle
      _ = u * den * den' := by ring

theorem floorMag_congr (num den num' den' : Nat) (hd : 0 < den) (hd' : 0 < den')
    (h : num * den' = num' * den) (k : Nat) :
    ∀ acc, floorMag num den k acc = floorMag num' den' k acc := by
  induction k with
  | zero => intro acc; rfl
  | succ k ih =>
    intro acc
    simp only [floorMag, cross_le_iff _ 16777216 num den num' den' hd hd' h, ih]

theorem roundMag_congr (num den num' den' : Nat) (hd : 0 < den) (hd' : 0 < den')
    (h : num * den' = num' * den) : roundMag num den = roundMag num' den' := by
  have e1 : ∀ s : Nat, 2 * (num * 16777216) < s * den ↔ 2 * (num' * 16777216) < s * den' := by
    intro s
    have := cross_le_iff s (2 * 16777216) num den num' den' hd hd' h
    constructor
    · intro hlt
      by_contra hc
      have h2 : num' * (2 * 16777216) ≤ s * den' := by omega
      have := (cross_ge_iff s (2 * 16777216) num den num' den' hd hd' h).2 h2
      have h3 : s * den ≤ num * (2 * 16777216) → False := by
        intro h4
        have h5 := (cross_le_iff s (2 * 16777216) num den num' den' hd hd' h).1 h4
        have h6 : 2 * (num * 16777216) = s * den := by omega
        omega
      omega
    · intro hlt
      by_contra hc
      have h2 : num * (2 * 16777216) ≤ s * den := by omega
      have := (cross_ge_iff s (2 * 16777216) num den num' den' hd hd' h).1 h2
      omega
  have e2 : ∀ s : Nat, s * den < 2 * (num * 16777216) ↔ s * den' < 2 * (num' * 16777216) := by
    intro s
    constructor
    · intro hlt
      by_contra hc
      have h2 : num' * (2 * 16777216) ≤ s * den' := by omega
      have := (cross_ge_iff s (2 * 16777216) num den num' den' hd hd' h).2 h2
      omega
    · intro hlt
      by_contra hc
      have h2 : num * (2 * 16777216) ≤ s * den := by omega
      have := (cross_ge_iff s (2 * 16777216) num den num' den' hd hd' h).1 h2
      omega
  simp only [roundMag, floorMag_congr num den num' den' hd hd' h, e1, e2]

/-- The rounding depends on the fraction only, not on its numerator and
denominator. -/
theorem roundFrac_congr (z z' : Int) (den den' : Nat) (hd : 0 < den) (hd' : 0 < den')
    (h : z * den' = z' * den) (nz : Bool) : roundFrac z den nz = roundFrac z' den' nz := by
  have hd1 : (0 : Int) < den := by exact_mod_cast hd
  have hd2 : (0 : Int) < den' := by exact_mod_cast hd'
  have h0 : z = 0 ↔ z' = 0 := by
    constructor
    · intro hz
      rw [hz, zero_mul] at h
      rcases mul_eq_zero.1 h.symm with h1 | h1
      · exact h1
      · omega
    · intro hz
      rw [hz, zero_mul] at h
      rcases mul_eq_zero.1 h with h1 | h1
      · exact h1
      · omega
  have hneg : z < 0 ↔ z' < 0 := by
    constructor
    · intro hz
      by_contra hc
      have : 0 ≤ z' * den := mul_nonneg (by omega) hd1.le
      have : z * den' < 0 := mul_neg_of_neg_of_pos hz hd2
      omega
    · intro hz
      by_contra hc
      have : 0 ≤ z * den' := mul_nonneg (by omega) hd2.le
      have : z' * den < 0 := mul_neg_of_neg_of_pos hz hd1
      omega
  have habs : z.natAbs * den' = z'.natAbs * den := by
    have := congrArg Int.natAbs h
    simpa [Int.natAbs_mul] using this
  simp only [roundFrac, h0, hneg, roundMag_congr _ _ _ _ hd hd' habs]

/-- The pattern of the value of a positive finite lane is the lane. -/
theorem roundFrac_toRat (b : Half) (h0 : 0 < b.val) (h1 : b.val ≤ 0x7C00) (nz : Bool) :
    roundFrac b.toRat.num b.toRat.den nz = b := by
  have hq : (b.toRat.num : ℚ) / (b.toRat.den : ℚ) = (b.units : ℚ) / 16777216 := by
    rw [Rat.num_div_den]; rfl
  have hden : (b.toRat.den : ℚ) ≠ 0 := by exact_mod_cast b.toRat.den_pos.ne'
  rw [div_eq_div_iff hden (by norm_num)] at hq
  have hz : b.toRat.num * ((16777216 : Nat) : Int) = b.units * (b.toRat.den : Int) := by
    exact_mod_cast hq
  rw [roundFrac_congr b.toRat.num b.units b.toRat.den 16777216 b.toRat.den_pos (by norm_num) hz,
    roundFrac_units b h0 h1 nz]

set_option maxRecDepth 100000 in
theorem land_7C00 (v : Nat) (hv : v < 32768) : v &&& 0x7C00 = 1024 * (v / 1024) := by
  have h1 : ∀ q : Fin 32, 2 ^ 10 * q.val &&& 0x7C00 = 1024 * q.val := by decide
  have h2 : ∀ t : Fin 1024, t.val &&& 0x7C00 = 0 := by decide
  have hq : v / 1024 < 32 := by omega
  have ht : v % 1024 < 1024 := Nat.mod_lt _ (by norm_num)
  have hv2 : v = 2 ^ 10 * (v / 1024) + v % 1024 := by omega
  have hor : 2 ^ 10 * (v / 1024) + v % 1024 = 2 ^ 10 * (v / 1024) ||| v % 1024 :=
    Nat.mul_add_lt_is_or ht _
  calc v &&& 0x7C00 = (2 ^ 10 * (v / 1024) ||| v % 1024) &&& 0x7C00 := by rw [← hor, ← hv2]
    _ = (2 ^ 10 * (v / 1024) &&& 0x7C00) ||| (v % 1024 &&& 0x7C00) := Nat.and_distrib_right _ _ _
    _ = 1024 * (v / 1024) := by
      rw [h1 ⟨v / 1024, hq⟩, h2 ⟨v % 1024, ht⟩]; simp

theorem int_land_7C00 (v : Nat) (hv : v < 32768) :
    Int.land (v : Int) 0x07c00 = 1024 * ((v / 1024 : Nat) : Int) := by
  have : Int.land (v : Int) 0x07c00 = ((v &&& 0x7C00 : Nat) : Int) := rfl
  rw [this, land_7C00 v hv]
  push_cast
  rfl

/-- The integer bias `m` of the initial guess on a positive pattern. -/
theorem guess_bias (v : Nat) (hv : v < 32768) :
    wrap16 (0x03c00 - Int.land (v : Int) 0x07c00) = 15360 - 1024 * ((v / 1024 : Nat) : Int) := by
  rw [int_land_7C00 v hv, wrap16_of_range _ (by omega) (by omega)]

theorem toS16_of_lt (p : Half) (hp : p.val < 32768) : p.toS16 = (p.val : Int) := by
  simp only [Half.toS16, if_pos hp]

theorem roundFrac_rat (q : ℚ) (z : Int) (d : Nat) (hd : 0 < d) (hq : q = (z : ℚ) / (d : ℚ))
    (nz : Bool) : roundFrac q.num q.den nz = roundFrac z d nz := by
  apply roundFrac_congr _ _ _ _ q.den_pos hd
  have h1 : (q.num : ℚ) / (q.den : ℚ) = (z : ℚ) / (d : ℚ) := by rw [Rat.num_div_den]; exact hq
  have hden : (q.den : ℚ) ≠ 0 := by exact_mod_cast q.den_pos.ne'
  have hd0 : (d : ℚ) ≠ 0 := by exact_mod_cast hd.ne'
  rw [div_eq_div_iff hden hd0] at h1
  exact_mod_cast h1

/-- The initial guess in exact arithmetic with binary16 views, on the value of
the positive normal lane `1024 * e + t`: the affine transform of
`(1024 + t) / 1024` is rounded to a pattern and the bias `15360 - 1024 * e` is
added to that pattern. -/
theorem guess_exact_lane (inf ln2 : ℚ) (lut tab : Fin 8 → ℚ) (x : Vec ℚ) (i : Fin 8) (b : Half)
    (e t : Nat) (hx : x i = b.toRat) (hb : b.val = 1024 * e + t) (ht : t < 1024) (he1 : 1 ≤ e)
    (he2 : e ≤ 30) :
    vrecip_f16_guess (Lane.exact ℚ (ExactParams.binary16 inf ln2 lut tab)) x i
      = (Half.ofS16 (wrap16 ((roundFrac
            (141176471 * 1024 - 47058824 * (1024 + (t : Int))) 102400000000 false).toS16
          + (15360 - 1024 * (e : Int))))).toRat := by
  have hbr := toRat_of_pos_normal b e t hb ht he1 (by omega)
  have hpos : 0 < b.toRat := by
    rw [hbr]; positivity
  have hbits : (roundFrac |x i|.num |x i|.den false).toS16 = (b.val : Int) := by
    rw [hx, abs_of_pos hpos, roundFrac_toRat b (by omega) (by omega), toS16_of_lt b (by omega)]
  have hm : wrap16 (0x03c00 - Int.land (b.val : Int) 0x07c00) = 15360 - 1024 * (e : Int) := by
    rw [guess_bias b.val (by omega)]
    have : b.val / 1024 = e := by omega
    rw [this]
  have h1v : (Half.ofS16 (wrap16 ((b.val : Int) + (15360 - 1024 * (e : Int))))).val
      = 1024 * 15 + t := by
    have hw : wrap16 ((b.val : Int) + (15360 - 1024 * (e : Int))) = 15360 + (t : Int) := by
      rw [wrap16_of_range _ (by omega) (by omega)]; omega
    rw [hw]
    have := ofS16_val_of_nonneg (15360 + (t : Int)) (by omega) (by omega)
    omega
  have h1r := toRat_of_pos_normal _ 15 t h1v ht (by norm_num) (by norm_num)
  norm_num at h1r
  have hy : (1.41176471 : ℚ) - 0.47058824 * ((1024 + (t : ℚ)) / 1024)
      = ((141176471 * 1024 - 47058824 * (1024 + (t : Int)) : Int) : ℚ)
          / ((102400000000 : Nat) : ℚ) := by
    push_cast
    norm_num
    ring
  show (Half.ofS16 (wrap16 ((roundFrac
      ((1.41176471 : ℚ) - 0.47058824 * (Half.ofS16 (wrap16 ((roundFrac |x i|.num |x i|.den
        false).toS16 + wrap16 (0x03c00 - Int.land ((roundFrac |x i|.num |x i|.den
        false).toS16) 0x07c00)))).toRat).num
      ((1.41176471 : ℚ) - 0.47058824 * (Half.ofS16 (wrap16 ((roundFrac |x i|.num |x i|.den
        false).toS16 + wrap16 (0x03c00 - Int.land ((roundFrac |x i|.num |x i|.den
        false).toS16) 0x07c00)))).toRat).den false).toS16
      + wrap16 (0x03c00 - Int.land ((roundFrac |x i|.num |x i|.den false).toS16) 0x07c00)))).toRat
    = _
  rw [hbits, hm, h1r, roundFrac_rat _ _ 102400000000 (by norm_num) hy]

/-- Adding `1024 * k` to a positive normal pattern, with wrap-around, multiplies
the value by `2^k` while the exponent field stays within `1..30`. -/
theorem shift_lane (p : Half) (k : Int) (f s : Nat) (hp : p.val = 1024 * f + s) (hs : s < 1024)
    (hf1 : 1 ≤ f) (hf2 : f ≤ 30) (hlo : 1 ≤ (f : Int) + k) (hhi : (f : Int) + k ≤ 30) :
    (Half.ofS16 (wrap16 (p.toS16 + (1024 * k)))).val = 1024 * ((f : Int) + k).toNat + s
    ∧ (Half.ofS16 (wrap16 (p.toS16 + (1024 * k)))).toRat = p.toRat * 2 ^ k := by
  have hb : p.toS16 = 1024 * (f : Int) + s := by
    rw [toS16_of_lt p (by omega)]; omega
  have hw : wrap16 (p.toS16 + 1024 * k) = 1024 * ((f : Int) + k) + s := by
    rw [hb, wrap16_of_range _ (by omega) (by omega)]; ring
  have hv : (Half.ofS16 (wrap16 (p.toS16 + 1024 * k))).val = 1024 * ((f : Int) + k).toNat + s := by
    rw [hw]
    have := ofS16_val_of_nonneg (1024 * ((f : Int) + k) + s) (by omega) (by omega)
    omega
  refine ⟨hv, ?_⟩
  rw [toRat_of_pos_normal _ ((f : Int) + k).toNat s hv hs (by omega) (by omega),
    toRat_of_pos_normal p f s hp hs hf1 (by omega)]
  have hcast : ((((f : Int) + k).toNat : Nat) : Int) = (f : Int) + k := by omega
  rw [hcast, mul_assoc, ← zpow_add₀ (by norm_num : (2 : ℚ) ≠ 0)]
  congr 2
  ring

theorem toRat_eq_magUnits (p : Half) (hp : p.val < 32768) :
    p.toRat = (magUnits p.val : ℚ) / 16777216 := by
  simp only [Half.toRat, Half.units, if_pos hp]
  push_cast
  rfl

/-- From the pattern `p` of the transformed mantissa to the guess: for an
input with exponent field `e ≤ 27` and fraction `t`, when `p` has the exponent
field 13 or 14 and `magUnits p * (1024 + t)` is within 6 percent of `2^34`, the
pattern `p` moved by the bias is a positive value `y0` with
`|1 - y0 * x| ≤ 6/100`. -/
theorem guess_error_of_table (b p : Half) (e t : Nat) (hb : b.val = 1024 * e + t)
    (ht : t < 1024) (he1 : 1 ≤ e) (he2 : e ≤ 27) (hp1 : 13312 ≤ p.val) (hp2 : p.val < 15360)
    (hlo : 94 * 2 ^ 34 ≤ 100 * (magUnits p.val * (1024 + t)))
    (hhi : 100 * (magUnits p.val * (1024 + t)) ≤ 106 * 2 ^ 34) :
    0 < (Half.ofS16 (wrap16 (p.toS16 + (15360 - 1024 * (e : Int))))).toRat
    ∧ |1 - (Half.ofS16 (wrap16 (p.toS16 + (15360 - 1024 * (e : Int))))).toRat * b.toRat|
        ≤ 6 / 100 := by
  have hk : (15360 - 1024 * (e : Int)) = 1024 * (15 - (e : Int)) := by ring
  obtain ⟨_, hr⟩ := shift_lane p (15 - (e : Int)) (p.val / 1024) (p.val % 1024) (by omega)
    (Nat.mod_lt _ (by norm_num)) (by omega) (by omega) (by omega) (by omega)
  rw [hk, hr, toRat_of_pos_normal b e t hb ht he1 (by omega), toRat_eq_magUnits p (by omega)]
  have hz : (2 : ℚ) ^ (15 - (e : Int)) * 2 ^ ((e : Int) - 15) = 1 := by
    rw [← zpow_add₀ (by norm_num : (2 : ℚ) ≠ 0)]
    have : (15 - (e : Int)) + ((e : Int) - 15) = 0 := by ring
    rw [this, zpow_zero]
  have hprod : (magUnits p.val : ℚ) / 16777216 * 2 ^ (15 - (e : Int))
      * ((1024 + (t : ℚ)) / 1024 * 2 ^ ((e : Int) - 15))
      = ((magUnits p.val * (1024 + t) : Nat) : ℚ) / 2 ^ 34 := by
    have : (magUnits p.val : ℚ) / 16777216 * 2 ^ (15 - (e : Int))
        * ((1024 + (t : ℚ)) / 1024 * 2 ^ ((e : Int) - 15))
        = (magUnits p.val : ℚ) / 16777216 * ((1024 + (t : ℚ)) / 1024)
          * (2 ^ (15 - (e : Int)) * 2 ^ ((e : Int) - 15)) := by ring
    rw [this, hz]
    push_cast
    norm_num
    ring
  have hU : 0 < magUnits p.val := by
    have := magUnits_strictMono (show 0 < p.val by omega)
    simpa [magUnits] using this
  constructor
  · have h2 : (0 : ℚ) < 2 ^ (15 - (e : Int)) := by positivity
    have h3 : (0 : ℚ) < (magUnits p.val : ℚ) := by exact_mod_cast hU
    positivity
  · rw [hprod, abs_le]
    have h1 : ((94 * 2 ^ 34 : Nat) : ℚ) ≤ ((100 * (magUnits p.val * (1024 + t)) : Nat) : ℚ) := by
      exact_mod_cast hlo
    have h2 : ((100 * (magUnits p.val * (1024 + t)) : Nat) : ℚ) ≤ ((106 * 2 ^ 34 : Nat) : ℚ) := by
      exact_mod_cast hhi
    push_cast at h1 h2 ⊢
    constructor
    · rw [neg_le_sub_iff_le_add, div_le_iff₀ (by positivity)]
      linarith
    · rw [sub_le_comm, le_div_iff₀ (by positivity)]
      linarith

set_option maxRecDepth 1000000 in
set_option maxHeartbeats 40000000 in
/-- The pattern of the exactly transformed mantissa, for each of the 1024
fractions: exponent field 13 or 14, and within 6 percent of the reciprocal. -/
theorem guess_table_exact : ∀ t : Fin 1024,
    13312 ≤ (roundFrac (141176471 * 1024 - 47058824 * (1024 + (t.val : Int)))
        102400000000 false).val
    ∧ (roundFrac (141176471 * 1024 - 47058824 * (1024 + (t.val : Int)))
        102400000000 false).val < 15360
    ∧ 94 * 2 ^ 34 ≤ 100 * (magUnits (roundFrac (141176471 * 1024
        - 47058824 * (1024 + (t.val : Int))) 102400000000 false).val * (1024 + t.val))
    ∧ 100 * (magUnits (roundFrac (141176471 * 1024
        - 47058824 * (1024 + (t.val : Int))) 102400000000 false).val * (1024 + t.val))
        ≤ 106 * 2 ^ 34 := by
  decide

set_option maxRecDepth 1000000 in
set_option maxHeartbeats 40000000 in
/-- The pattern of the transformed mantissa in IEEE-754 arithmetic, for each of
the 1024 fractions: exponent field 13 or 14, and within 6 percent of the
reciprocal. -/
theorem guess_table_ieee : ∀ t : Fin 1024,
    13312 ≤ (ieeeAdd (roundFrac 141176471 100000000 false)
        (ieeeMul (roundFrac 47058824 100000000 false) (mkHalf (15360 + t.val))).neg).val
    ∧ (ieeeAdd (roundFrac 141176471 100000000 false)
        (ieeeMul (roundFrac 47058824 100000000 false) (mkHalf (15360 + t.val))).neg).val < 15360
    ∧ 94 * 2 ^ 34 ≤ 100 * (magUnits (ieeeAdd (roundFrac 141176471 100000000 false)
        (ieeeMul (roundFrac 47058824 100000000 false) (mkHalf (15360 + t.val))).neg).val
          * (1024 + t.val))
    ∧ 100 * (magUnits (ieeeAdd (roundFrac 141176471 100000000 false)
        (ieeeMul (roundFrac 47058824 100000000 false) (mkHalf (15360 + t.val))).neg).val
          * (1024 + t.val)) ≤ 106 * 2 ^ 34 := by
  decide

theorem halfLane_arith (R : HalfOps) (T : Tables) : (halfLane R T).toArith = R.toArith := rfl

theorem halfLane_c1 (R : HalfOps) (T : Tables) :
    (halfLane R T).c1_41176471 = roundFrac 141176471 100000000 false := rfl

theorem halfLane_c0 (R : HalfOps) (T : Tables) :
    (halfLane R T).c0_47058824 = roundFrac 47058824 100000000 false := rfl

theorem ieee_sub (a b : Half) : ieee.toArith.sub a b = ieeeAdd a b.neg := rfl

theorem ieee_mul (a b : Half) : ieee.toArith.mul a b = ieeeMul a b := rfl

theorem half_abs_of_lt (b : Half) (hb : b.val < 32768) : b.abs = b := by
  apply Fin.ext
  simp only [Half.abs, mkHalf_val]
  omega

/-- The initial guess in IEEE-754 arithmetic on the positive normal lane
`1024 * e + t`. -/
theorem guess_ieee_lane (T : Tables) (x : Vec Half) (i : Fin 8) (e t : Nat)
    (hb : (x i).val = 1024 * e + t) (ht : t < 1024) (he1 : 1 ≤ e) (he2 : e ≤ 30) :
    vrecip_f16_guess (halfLane ieee T) x i
      = Half.ofS16 (wrap16 ((ieeeAdd (roundFrac 141176471 100000000 false)
            (ieeeMul (roundFrac 47058824 100000000 false) (mkHalf (15360 + t))).neg).toS16
          + (15360 - 1024 * (e : Int)))) := by
  have habs : (x i).abs = x i := half_abs_of_lt _ (by omega)
  have hm : wrap16 (0x03c00 - Int.land ((x i).val : Int) 0x07c00) = 15360 - 1024 * (e : Int) := by
    rw [guess_bias (x i).val (by omega)]
    have : (x i).val / 1024 = e := by omega
    rw [this]
  have h1 : Half.ofS16 (wrap16 (((x i).val : Int) + (15360 - 1024 * (e : Int))))
      = mkHalf (15360 + t) := by
    have hw : wrap16 (((x i).val : Int) + (15360 - 1024 * (e : Int))) = 15360 + (t : Int) := by
      rw [wrap16_of_range _ (by omega) (by omega)]; omega
    rw [hw]
    apply Fin.ext
    have := ofS16_val_of_nonneg (15360 + (t : Int)) (by omega) (by omega)
    simp only [mkHalf_val]
    omega
  simp only [vrecip_f16_guess, vabsq, reinterpret_s16, reinterpret_f16, vaddq_s16, vsubq_s16,
    vandq_s16, vsubq, vmulq, vdupq_n, halfLane_abs, halfLane_bits, halfLane_ofBits,
    halfLane_arith, halfLane_c1, halfLane_c0, ieee_sub, ieee_mul]
  rw [habs, toS16_of_lt (x i) (by omega), hm, h1]

/-- Claim C13 fails at the top of the normal range: on the lane `0x73FF` (the
value 16376, exponent field 28) the transformed mantissa has the exponent
field 13, the bias moves it to the exponent field 0, and the guess is the
subnormal `0x0389` in exact arithmetic and `0x038A` in IEEE-754 arithmetic,
for which `1 - y0 * x` is above 0.11. -/
theorem vrecip_f16_guess_16376 :
    (mkHalf 0x73FF).isNormal = true ∧ (mkHalf 0x73FF).signBit = false
    ∧ (mkHalf 0x73FF).expField = 28
    ∧ vrecip_f16_guess (Lane.exact ℚ (ExactParams.binary16 0 0 (fun _ => 0) (fun _ => 0)))
          (fun _ => (mkHalf 0x73FF).toRat) 0 = (mkHalf 0x0389).toRat
    ∧ vrecip_f16_guess (halfLane ieee ⟨fun _ => mkHalf 0, fun _ => mkHalf 0⟩)
          (vdupq_n (mkHalf 0x73FF)) 0 = mkHalf 0x038A
    ∧ ¬ (|1 - (mkHalf 0x0389).toRat * (mkHalf 0x73FF).toRat| ≤ 6 / 100)
    ∧ ¬ (|1 - (mkHalf 0x038A).toRat * (mkHalf 0x73FF).toRat| ≤ 6 / 100) := by
  have h1 := guess_exact_lane 0 0 (fun _ => 0) (fun _ => 0) (fun _ => (mkHalf 0x73FF).toRat) 0
    (mkHalf 0x73FF) 28 1023 rfl (by decide) (by decide) (by decide) (by decide)
  have h2 : Half.ofS16 (wrap16 ((roundFrac (141176471 * 1024
      - 47058824 * (1024 + ((1023 : Nat) : Int))) 102400000000 false).toS16
      + (15360 - 1024 * ((28 : Nat) : Int)))) = mkHalf 0x0389 := by decide
  rw [h2] at h1
  have e1 : (mkHalf 0x0389).toRat = 905 / 16777216 := by
    norm_num [Half.toRat, Half.units, magUnits, mkHalf]
  have e2 : (mkHalf 0x038A).toRat = 906 / 16777216 := by
    norm_num [Half.toRat, Half.units, magUnits, mkHalf]
  have e3 : (mkHalf 0x73FF).toRat = 16376 := by
    norm_num [Half.toRat, Half.units, magUnits, mkHalf]
  refine ⟨by decide, by decide, by decide, h1, by decide, ?_, ?_⟩
  · rw [e1, e3, abs_le]; norm_num
  · rw [e2, e3, abs_le]; norm_num

/-- Claim C14: in `vexpq_f16`, when `poly` is a positive normal lane with
exponent field `e` and fraction `t`, and `-32 ≤ m ≤ 31` with `1 ≤ e + m ≤ 30`,
neither `vqshlq_n_s16(m, 10)` nor `vqaddq_s16` saturates, the reconstructed
lane of line 231 has sign 0, exponent field `e + m` and fraction `t`, and its
value is `poly * 2^m`; the returned lane is that lane unless the guard zeroes
it. -/
theorem vexpq_f16_inject (R : HalfOps) (T : Tables) (x : Vec Half) (i : Fin 8)
    (hn : (vexpq_f16_poly (halfLane R T) x i).isNormal = true)
    (hp : (vexpq_f16_poly (halfLane R T) x i).signBit = false)
    (hm1 : -32 ≤ vexpq_f16_m (halfLane R T) x i) (hm2 : vexpq_f16_m (halfLane R T) x i ≤ 31)
    (hlo : 1 ≤ ((vexpq_f16_poly (halfLane R T) x i).expField : Int)
      + vexpq_f16_m (halfLane R T) x i)
    (hhi : ((vexpq_f16_poly (halfLane R T) x i).expField : Int)
      + vexpq_f16_m (halfLane R T) x i ≤ 30) :
    vqshlq_n_s16 (vexpq_f16_m (halfLane R T) x) 10 i = vexpq_f16_m (halfLane R T) x i * 1024
    ∧ vqaddq_s16 (reinterpret_s16 (halfLane R T) (vexpq_f16_poly (halfLane R T) x))
        (vqshlq_n_s16 (vexpq_f16_m (halfLane R T) x) 10) i
        = (vexpq_f16_poly (halfLane R T) x i).toS16 + vexpq_f16_m (halfLane R T) x i * 1024
    ∧ vexpq_f16_recon (halfLane R T) x i
        = Half.ofS16 ((vexpq_f16_poly (halfLane R T) x i).toS16
            + vexpq_f16_m (halfLane R T) x i * 1024)
    ∧ (vexpq_f16_recon (halfLane R T) x i).signBit = false
    ∧ ((vexpq_f16_recon (halfLane R T) x i).expField : Int)
        = ((vexpq_f16_poly (halfLane R T) x i).expField : Int) + vexpq_f16_m (halfLane R T) x i
    ∧ (vexpq_f16_recon (halfLane R T) x i).frac = (vexpq_f16_poly (halfLane R T) x i).frac
    ∧ (vexpq_f16_recon (halfLane R T) x i).toRat
        = (vexpq_f16_poly (halfLane R T) x i).toRat * 2 ^ (vexpq_f16_m (halfLane R T) x i)
    ∧ vexpq_f16 (halfLane R T) x i
        = (if vexpq_f16_m (halfLane R T) x i < -14 then mkHalf 0x0000
           else vexpq_f16_recon (halfLane R T) x i) := by
  have hlt : (vexpq_f16_poly (halfLane R T) x i).val < 32768 := by
    simpa [Half.signBit] using hp
  simp only [Half.isNormal, decide_eq_true_eq] at hn
  have hE : (vexpq_f16_poly (halfLane R T) x i).expField
      = (vexpq_f16_poly (halfLane R T) x i).val / 1024 := by
    simp only [Half.expField]; omega
  rw [hE] at hn hlo hhi
  obtain ⟨hs, ha, hv, hr⟩ := inject_lane (vexpq_f16_poly (halfLane R T) x i)
    (vexpq_f16_m (halfLane R T) x i) ((vexpq_f16_poly (halfLane R T) x i).val / 1024)
    ((vexpq_f16_poly (halfLane R T) x i).val % 1024) (by omega) (Nat.mod_lt _ (by norm_num))
    hn.1 hn.2 hlo hhi
  have hb : (vexpq_f16_poly (halfLane R T) x i).toS16
      = ((vexpq_f16_poly (halfLane R T) x i).val : Int) := toS16_of_lt _ hlt
  have hrec : vexpq_f16_recon (halfLane R T) x i
      = Half.ofS16 (sat16 ((vexpq_f16_poly (halfLane R T) x i).toS16
          + sat16 (vexpq_f16_m (halfLane R T) x i * 2 ^ 10))) := by
    simp only [vexpq_f16_recon, reinterpret_f16, reinterpret_s16, vqaddq_s16, vqshlq_n_s16,
      halfLane_bits, halfLane_ofBits]
  have hsum : sat16 ((vexpq_f16_poly (halfLane R T) x i).toS16
        + sat16 (vexpq_f16_m (halfLane R T) x i * 2 ^ 10))
      = (vexpq_f16_poly (halfLane R T) x i).toS16 + vexpq_f16_m (halfLane R T) x i * 1024 := by
    rw [ha, hb]; omega
  refine ⟨?_, ?_, ?_, ?_, ?_, ?_, ?_, ?_⟩
  · simp only [vqshlq_n_s16]; exact hs
  · simp only [vqaddq_s16, vqshlq_n_s16, reinterpret_s16, halfLane_bits]; exact hsum
  · rw [hrec, hsum]
  · rw [hrec]; simp only [Half.signBit, decide_eq_false_iff_not, hv]; omega
  · rw [hrec, hE]; simp only [Half.expField, hv]; omega
  · rw [hrec]; simp only [Half.frac, hv]; omega
  · rw [hrec]; exact hr
  · rw [hrec]; exact vexpq_f16_lane R T x i

/-- The exponential of 1 (`0x3C00`) with the table of `1 + x + x^2 / 2`: the
quotient is `m = 1`, `poly` is `0x3D6A` and the reconstructed lane is
`0x416A`, twice `poly`, an instance of claim C14. -/
theorem vexpq_f16_inject_witness :
    vexpq_f16_m (halfLane ieee ⟨fun _ => mkHalf 0, fun k => if k = 0 ∨ k = 4 then mkHalf 0x3C00
        else if k = 2 then mkHalf 0x3800 else mkHalf 0⟩) (vdupq_n (mkHalf 0x3C00)) 0 = 1
    ∧ vexpq_f16_poly (halfLane ieee ⟨fun _ => mkHalf 0, fun k => if k = 0 ∨ k = 4 then
        mkHalf 0x3C00 else if k = 2 then mkHalf 0x3800 else mkHalf 0⟩)
        (vdupq_n (mkHalf 0x3C00)) 0 = mkHalf 0x3D6A
    ∧ vexpq_f16_recon (halfLane ieee ⟨fun _ => mkHalf 0, fun k => if k = 0 ∨ k = 4 then
        mkHalf 0x3C00 else if k = 2 then mkHalf 0x3800 else mkHalf 0⟩)
        (vdupq_n (mkHalf 0x3C00)) 0 = mkHalf 0x416A
    ∧ (vexpq_f16_recon (halfLane ieee ⟨fun _ => mkHalf 0, fun k => if k = 0 ∨ k = 4 then
        mkHalf 0x3C00 else if k = 2 then mkHalf 0x3800 else mkHalf 0⟩)
        (vdupq_n (mkHalf 0x3C00)) 0).toRat
      = (vexpq_f16_poly (halfLane ieee ⟨fun _ => mkHalf 0, fun k => if k = 0 ∨ k = 4 then
          mkHalf 0x3C00 else if k = 2 then mkHalf 0x3800 else mkHalf 0⟩)
          (vdupq_n (mkHalf 0x3C00)) 0).toRat
        * 2 ^ (vexpq_f16_m (halfLane ieee ⟨fun _ => mkHalf 0, fun k => if k = 0 ∨ k = 4 then
          mkHalf 0x3C00 else if k = 2 then mkHalf 0x3800 else mkHalf 0⟩)
          (vdupq_n (mkHalf 0x3C00)) 0) :=
  ⟨by decide, by decide, by decide,
   (vexpq_f16_inject ieee ⟨fun _ => mkHalf 0, fun k => if k = 0 ∨ k = 4 then mkHalf 0x3C00
        else if k = 2 then mkHalf 0x3800 else mkHalf 0⟩ (vdupq_n (mkHalf 0x3C00)) 0
      (by decide) (by decide) (by decide) (by decide) (by decide) (by decide)).2.2.2.2.2.2.1⟩

/-- One Newton pass squares the residual, in exact arithmetic on a positive
lane. -/
theorem vrecip_f16_newton_residual (K : Type) [LinearOrderedField K] [FloorRing K]
    (P : ExactParams K) (x y : Vec K) (i : Fin 8) (hx : 0 < x i) :
    1 - vrecip_f16_newton (Lane.exact K P) (vabsq (Lane.exact K P) x) y i * x i
      = (1 - y i * x i) ^ 2 := by
  rw [vrecip_f16_newton_exact_pos K P x y i hx]; ring

/-- The three-pass reciprocal in exact arithmetic on a positive lane: its
residual is the eighth power of the residual of the initial guess. -/
theorem vrecip_medprec_f16_residual (K : Type) [LinearOrderedField K] [FloorRing K]
    (P : ExactParams K) (x : Vec K) (i : Fin 8) (hx : 0 < x i) :
    1 - vrecip_medprec_f16 (Lane.exact K P) x i * x i
      = (1 - vrecip_f16_guess (Lane.exact K P) x i * x i) ^ 8 := by
  rw [vrecip_medprec_f16_stages, vrecip_f16_finish_exact_pos K P x _ i hx,
    vrecip_f16_newton_residual K P x _ i hx, vrecip_f16_newton_residual K P x _ i hx,
    vrecip_f16_newton_residual K P x _ i hx]
  ring

/-- The residuals of both reciprocals on the lane `2` with the binary16 views
of the union: the initial guess is `241/512` (the pattern `0x3788`), the
residual of the three-pass reciprocal is `(15/256)^8`, within 1, and the
residual of the four-pass reciprocal is its square and not larger; an instance
of claim C12. -/
theorem vrecip_f16_hiprec_residual_witness :
    vrecip_f16_guess (Lane.exact ℚ (ExactParams.binary16 65536 (6931471805 / 10000000000)
        (fun _ => 0) (fun _ => 0))) (vdupq_n 2) 0 = 241 / 512
    ∧ 1 - vrecip_medprec_f16 (Lane.exact ℚ (ExactParams.binary16 65536
        (6931471805 / 10000000000) (fun _ => 0) (fun _ => 0))) (vdupq_n 2) 0 * 2
        = (15 / 256) ^ 8
    ∧ |1 - vrecip_medprec_f16 (Lane.exact ℚ (ExactParams.binary16 65536
        (6931471805 / 10000000000) (fun _ => 0) (fun _ => 0))) (vdupq_n 2) 0
          * (vdupq_n 2 : Vec ℚ) 0| ≤ 1
    ∧ 1 - vrecip_hiprec_f16 (Lane.exact ℚ (ExactParams.binary16 65536
        (6931471805 / 10000000000) (fun _ => 0) (fun _ => 0))) (vdupq_n 2) 0
          * (vdupq_n 2 : Vec ℚ) 0
        = (1 - vrecip_medprec_f16 (Lane.exact ℚ (ExactParams.binary16 65536
            (6931471805 / 10000000000) (fun _ => 0) (fun _ => 0))) (vdupq_n 2) 0
              * (vdupq_n 2 : Vec ℚ) 0) ^ 2
    ∧ |1 - vrecip_hiprec_f16 (Lane.exact ℚ (ExactParams.binary16 65536
        (6931471805 / 10000000000) (fun _ => 0) (fun _ => 0))) (vdupq_n 2) 0
          * (vdupq_n 2 : Vec ℚ) 0|
        ≤ |1 - vrecip_medprec_f16 (Lane.exact ℚ (ExactParams.binary16 65536
            (6931471805 / 10000000000) (fun _ => 0) (fun _ => 0))) (vdupq_n 2) 0
              * (vdupq_n 2 : Vec ℚ) 0| := by
  have hx : (0 : ℚ) < (vdupq_n 2 : Vec ℚ) 0 := by norm_num [vdupq_n]
  have h2 : (mkHalf 0x4000).toRat = 2 := by
    norm_num [Half.toRat, Half.units, magUnits, mkHalf]
  have hg : vrecip_f16_guess (Lane.exact ℚ (ExactParams.binary16 65536
      (6931471805 / 10000000000) (fun _ => 0) (fun _ => 0))) (vdupq_n 2) 0 = 241 / 512 := by
    rw [guess_exact_lane 65536 (6931471805 / 10000000000) (fun _ => 0) (fun _ => 0) (vdupq_n 2) 0
      (mkHalf 0x4000) 16 0 (by rw [h2]; rfl) (by decide) (by decide) (by decide) (by decide)]
    have hpat : Half.ofS16 (wrap16 ((roundFrac (141176471 * 1024
        - 47058824 * (1024 + ((0 : Nat) : Int))) 102400000000 false).toS16
        + (15360 - 1024 * ((16 : Nat) : Int)))) = mkHalf 0x3788 := by decide
    rw [hpat]
    norm_num [Half.toRat, Half.units, magUnits, mkHalf]
  have hmed := vrecip_medprec_f16_residual ℚ (ExactParams.binary16 65536
      (6931471805 / 10000000000) (fun _ => 0) (fun _ => 0)) (vdupq_n 2) 0 hx
  rw [hg] at hmed
  have hmed2 : 1 - vrecip_medprec_f16 (Lane.exact ℚ (ExactParams.binary16 65536
      (6931471805 / 10000000000) (fun _ => 0) (fun _ => 0))) (vdupq_n 2) 0
        * (vdupq_n 2 : Vec ℚ) 0 = (15 / 256) ^ 8 := by
    rw [hmed]; norm_num [vdupq_n]
  have hante : |1 - vrecip_medprec_f16 (Lane.exact ℚ (ExactParams.binary16 65536
      (6931471805 / 10000000000) (fun _ => 0) (fun _ => 0))) (vdupq_n 2) 0
        * (vdupq_n 2 : Vec ℚ) 0| ≤ 1 := by
    rw [hmed2, abs_le]; norm_num
  exact ⟨hg, hmed2, hante,
    (vrecip_f16_hiprec_residual ℚ (ExactParams.binary16 65536 (6931471805 / 10000000000)
      (fun _ => 0) (fun _ => 0)) (vdupq_n 2) 0 hx).2.1,
    (vrecip_f16_hiprec_residual ℚ (ExactParams.binary16 65536 (6931471805 / 10000000000)
      (fun _ => 0) (fun _ => 0)) (vdupq_n 2) 0 hx).2.2 hante⟩

set_option maxRecDepth 1000000 in
set_option maxHeartbeats 400000000 in
/-- The guess with the exactly transformed mantissa on the exponent fields 28,
29 and 30, for each of the 1024 fractions: it is positive and within 6 percent
of the reciprocal exactly for the exponent field 28 with a fraction up to
982. -/
theorem guess_table_exact_top : ∀ t : Fin 1024, ∀ k : Fin 3,
    (0 < (Half.ofS16 (wrap16 ((roundFrac (141176471 * 1024 - 47058824 * (1024 + (t.val : Int)))
          102400000000 false).toS16 + (15360 - 1024 * ((28 + k.val : Nat) : Int))))).units
      ∧ 94 * 2 ^ 48 ≤ 100 * ((Half.ofS16 (wrap16 ((roundFrac (141176471 * 1024
          - 47058824 * (1024 + (t.val : Int))) 102400000000 false).toS16
          + (15360 - 1024 * ((28 + k.val : Nat) : Int))))).units
          * (magUnits (1024 * (28 + k.val) + t.val) : Int))
      ∧ 100 * ((Half.ofS16 (wrap16 ((roundFrac (141176471 * 1024
          - 47058824 * (1024 + (t.val : Int))) 102400000000 false).toS16
          + (15360 - 1024 * ((28 + k.val : Nat) : Int))))).units
          * (magUnits (1024 * (28 + k.val) + t.val) : Int)) ≤ 106 * 2 ^ 48)
    ↔ (k.val = 0 ∧ t.val ≤ 982) := by
  decide

set_option maxRecDepth 1000000 in
set_option maxHeartbeats 400000000 in
/-- The guess in IEEE-754 arithmetic on the exponent fields 28, 29 and 30, for
each of the 1024 fractions: it is positive and within 6 percent of the
reciprocal exactly for the exponent field 28 with a fraction up to 982. -/
theorem guess_table_ieee_top : ∀ t : Fin 1024, ∀ k : Fin 3,
    (0 < (Half.ofS16 (wrap16 ((ieeeAdd (roundFrac 141176471 100000000 false)
          (ieeeMul (roundFrac 47058824 100000000 false) (mkHalf (15360 + t.val))).neg).toS16
          + (15360 - 1024 * ((28 + k.val : Nat) : Int))))).units
      ∧ 94 * 2 ^ 48 ≤ 100 * ((Half.ofS16 (wrap16 ((ieeeAdd (roundFrac 141176471 100000000 false)
          (ieeeMul (roundFrac 47058824 100000000 false) (mkHalf (15360 + t.val))).neg).toS16
          + (15360 - 1024 * ((28 + k.val : Nat) : Int))))).units
          * (magUnits (1024 * (28 + k.val) + t.val) : Int))
      ∧ 100 * ((Half.ofS16 (wrap16 ((ieeeAdd (roundFrac 141176471 100000000 false)
          (ieeeMul (roundFrac 47058824 100000000 false) (mkHalf (15360 + t.val))).neg).toS16
          + (15360 - 1024 * ((28 + k.val : Nat) : Int))))).units
          * (magUnits (1024 * (28 + k.val) + t.val) : Int)) ≤ 106 * 2 ^ 48)
    ↔ (k.val = 0 ∧ t.val ≤ 982) := by
  decide

/-- The bound of the initial guess on integers: for a guess `r` and a positive
input `b`, `0 < r` and `|1 - r * b| ≤ 6/100` as rationals say that the product
of the two values in units of `2^-24` is within 6 percent of `2^48`. -/
theorem guess_ok_iff (r b : Half) (hb : b.val < 32768) :
    (0 < r.toRat ∧ |1 - r.toRat * b.toRat| ≤ 6 / 100)
    ↔ (0 < r.units ∧ 94 * 2 ^ 48 ≤ 100 * (r.units * (magUnits b.val : Int))
        ∧ 100 * (r.units * (magUnits b.val : Int)) ≤ 106 * 2 ^ 48) := by
  have hr : r.toRat = (r.units : ℚ) / 16777216 := rfl
  have hc : (0 : ℚ) < 281474976710656 := by norm_num
  have hprod : r.toRat * b.toRat
      = ((r.units : ℚ) * (magUnits b.val : ℚ)) / 281474976710656 := by
    rw [hr, toRat_eq_magUnits b hb]
    ring
  have hpos : 0 < r.toRat ↔ 0 < r.units := by
    rw [hr, div_pos_iff_of_pos_right (by norm_num : (0 : ℚ) < 16777216)]
    exact Int.cast_pos
  have hI1 : 94 * 2 ^ 48 ≤ 100 * (r.units * (magUnits b.val : Int))
      ↔ (26458647810801664 : ℚ) ≤ 100 * ((r.units : ℚ) * (magUnits b.val : ℚ)) := by
    rw [← @Int.cast_le ℚ]
    push_cast
    norm_num
  have hI2 : 100 * (r.units * (magUnits b.val : Int)) ≤ 106 * 2 ^ 48
      ↔ 100 * ((r.units : ℚ) * (magUnits b.val : ℚ)) ≤ (29836347531329536 : ℚ) := by
    rw [← @Int.cast_le ℚ]
    push_cast
    norm_num
  rw [hprod, hpos, hI1, hI2, abs_le]
  constructor
  · rintro ⟨h0, h1, h2⟩
    have h3 : (r.units : ℚ) * (magUnits b.val : ℚ) / 281474976710656 ≤ 106 / 100 := by linarith
    have h4 : (94 : ℚ) / 100 ≤ (r.units : ℚ) * (magUnits b.val : ℚ) / 281474976710656 := by
      linarith
    rw [div_le_iff₀ hc] at h3
    rw [le_div_iff₀ hc] at h4
    refine ⟨h0, ?_, ?_⟩
    · linarith
    · linarith
  · rintro ⟨h0, h1, h2⟩
    have h3 : (r.units : ℚ) * (magUnits b.val : ℚ) / 281474976710656 ≤ 106 / 100 := by
      rw [div_le_iff₀ hc]; linarith
    have h4 : (94 : ℚ) / 100 ≤ (r.units : ℚ) * (magUnits b.val : ℚ) / 281474976710656 := by
      rw [le_div_iff₀ hc]; linarith
    refine ⟨h0, ?_, ?_⟩
    · linarith
    · linarith

/-- Claim C13, amended: on a positive normal lane `x` the initial guess `y0`
of the reciprocal kernels is positive with `|1 - y0 * x| ≤ 0.06` exactly when
the exponent field is 1..27, or 28 with a fraction of at most 982; this holds
both with the affine transform in exact arithmetic (the bias added to the
nearest binary16 pattern) and in IEEE-754 arithmetic. -/
theorem vrecip_f16_guess_error (inf ln2 : ℚ) (lut tab : Fin 8 → ℚ) (T : Tables) (x : Vec Half)
    (i : Fin 8) (hn : (x i).isNormal = true) (hp : (x i).signBit = false) :
    ((0 < vrecip_f16_guess (Lane.exact ℚ (ExactParams.binary16 inf ln2 lut tab))
            (fun j => (x j).toRat) i
        ∧ |1 - vrecip_f16_guess (Lane.exact ℚ (ExactParams.binary16 inf ln2 lut tab))
            (fun j => (x j).toRat) i * (x i).toRat| ≤ 6 / 100)
      ↔ ((x i).expField ≤ 27 ∨ ((x i).expField = 28 ∧ (x i).frac ≤ 982)))
    ∧ ((0 < (vrecip_f16_guess (halfLane ieee T) x i).toRat
        ∧ |1 - (vrecip_f16_guess (halfLane ieee T) x i).toRat * (x i).toRat| ≤ 6 / 100)
      ↔ ((x i).expField ≤ 27 ∨ ((x i).expField = 28 ∧ (x i).frac ≤ 982))) := by
  have hlt : (x i).val < 32768 := by
    simpa [Half.signBit] using hp
  simp only [Half.isNormal, decide_eq_true_eq] at hn
  have hE : (x i).expField = (x i).val / 1024 := by
    simp only [Half.expField]; omega
  have hF : (x i).frac = (x i).val % 1024 := rfl
  rw [hE] at hn
  rw [hE, hF]
  have hb : (x i).val = 1024 * ((x i).val / 1024) + (x i).val % 1024 := by omega
  have ht : (x i).val % 1024 < 1024 := Nat.mod_lt _ (by norm_num)
  rw [guess_exact_lane inf ln2 lut tab (fun j => (x j).toRat) i (x i) _ _ rfl hb ht hn.1 hn.2,
    guess_ieee_lane T x i _ _ hb ht hn.1 hn.2]
  by_cases he : (x i).val / 1024 ≤ 27
  · obtain ⟨a1, a2, a3, a4⟩ := guess_table_exact ⟨(x i).val % 1024, ht⟩
    obtain ⟨b1, b2, b3, b4⟩ := guess_table_ieee ⟨(x i).val % 1024, ht⟩
    have hx := guess_error_of_table (x i) _ _ _ hb ht hn.1 he a1 a2 a3 a4
    have hi := guess_error_of_table (x i) _ _ _ hb ht hn.1 he b1 b2 b3 b4
    exact ⟨⟨fun _ => Or.inl he, fun _ => hx⟩, ⟨fun _ => Or.inl he, fun _ => hi⟩⟩
  · have hk : (x i).val / 1024 - 28 < 3 := by omega
    have hk2 : 28 + ((x i).val / 1024 - 28) = (x i).val / 1024 := by omega
    have tx := guess_table_exact_top ⟨(x i).val % 1024, ht⟩ ⟨(x i).val / 1024 - 28, hk⟩
    have ti := guess_table_ieee_top ⟨(x i).val % 1024, ht⟩ ⟨(x i).val / 1024 - 28, hk⟩
    simp only [hk2, ← hb] at tx ti
    have hrhs : ((x i).val / 1024 ≤ 27 ∨ ((x i).val / 1024 = 28 ∧ (x i).val % 1024 ≤ 982))
        ↔ ((x i).val / 1024 - 28 = 0 ∧ (x i).val % 1024 ≤ 982) := by
      constructor
      · rintro (h | ⟨h1, h2⟩)
        · exact absurd h he
        · exact ⟨by omega, h2⟩
      · rintro ⟨h1, h2⟩
        exact Or.inr ⟨by omega, h2⟩
    rw [guess_ok_iff _ (x i) hlt, guess_ok_iff _ (x i) hlt, hrhs]
    exact ⟨tx, ti⟩

/-- The initial guess on the lane `0x73D6` (the value 16044, exponent field 28,
fraction 982), the last lane on which the bound holds, an instance of claim
C13 as amended. -/
theorem vrecip_f16_guess_error_witness :
    0 < (vrecip_f16_guess (halfLane ieee ⟨fun _ => mkHalf 0, fun _ => mkHalf 0⟩)
        (vdupq_n (mkHalf 0x73D6)) 0).toRat
    ∧ |1 - (vrecip_f16_guess (halfLane ieee ⟨fun _ => mkHalf 0, fun _ => mkHalf 0⟩)
        (vdupq_n (mkHalf 0x73D6)) 0).toRat * ((vdupq_n (mkHalf 0x73D6) : Vec Half) 0).toRat|
      ≤ 6 / 100 :=
  (vrecip_f16_guess_error 0 0 (fun _ => 0) (fun _ => 0) ⟨fun _ => mkHalf 0, fun _ => mkHalf 0⟩
    (vdupq_n (mkHalf 0x73D6)) 0 (by decide) (by decide)).2.mpr (Or.inr ⟨by decide, by decide⟩)

end ArmVecMathF16
